import Mathlib

/-!
Verification development for the `goannotate` repository (package `locate`
and its earlier iterations `find`/`findimpl`).

The Go source is shallowly embedded: `go/types` data relevant to the
resolution engine (method signatures, interface method sets, the
`types.Info.Defs` maps the scanners iterate over) becomes explicit Lean
data, the stateful collector `locate.T` becomes explicit state passing,
and the concurrent walks become pure functions of the collected state
plus an explicit map-iteration order.
-/

/-! ## Method signatures and interface types

A `MethodSig` models a `go/types` method signature as consulted by
`types.Implements`: name, parameter type shapes and result type shapes
must match exactly. -/

structure MethodSig where
  name : String
  params : List String
  results : List String
deriving DecidableEq

/-- A syntactic embedded type reference of an interface, as exposed by
`types.Interface.EmbeddedType`: whether it is a `*types.Named` type, and
if so the object's name and its package path (`named.Obj().Name()`,
`named.Obj().Pkg().Path()`). -/
structure EmbRef where
  isNamed : Bool
  name : String
  pkgPath : String
deriving DecidableEq

/-- A `*types.Interface` after type checking: the complete (flattened)
method set that `types.Implements` consults, together with the syntactic
embedded references (`NumEmbeddeds`/`EmbeddedType`). -/
structure GoIfc where
  methods : List MethodSig
  embeddeds : List EmbRef
deriving DecidableEq

/-- Model of `types.Implements(T, ifc)`: the method set of `T` is a superset of the
interface's (complete) method set, signatures compared exactly. -/
def goImplements (tMethods : List MethodSig) (i : GoIfc) : Bool :=
  i.methods.all (fun m => tMethods.contains m)

/-- Model of `ast.IsExported` / `types.Object.Exported`: the first character of the
name is an upper-case letter. -/
def isExportedName (s : String) : Bool :=
  match s.data with
  | [] => false
  | c :: _ => c.isUpper

/-! ## Source positions -/

/-- Model of `token.Position` restricted to the fields the sorter consults:
`Filename` and `Offset`. -/
structure PosKey where
  filename : String
  offset : Nat
deriving DecidableEq

/-! ## The loader's per-file data needed by `addFunctionLocked`

`findFuncOrMethodDecl` scans the top-level declarations of the `ast.File`
containing the function for an `*ast.FuncDecl` whose name position equals
the function's position.  We model a file by its name and the set of name
positions of its top-level `FuncDecl`s, and the loader by the file table
plus the `token.Pos → token.Position` translation. -/

structure FileM where
  name : String
  funcDeclPositions : List Nat
deriving DecidableEq

structure LoaderM where
  posOf : Nat → PosKey
  files : List FileM

/-- Model of `loader.lookupFile`: find the file record by absolute name. -/
def lookupFileM (ld : LoaderM) (filename : String) : Option FileM :=
  ld.files.find? (fun f => f.name == filename)

/-- Model of `findFuncOrMethodDecl fn file`: the top-level `FuncDecl` whose name
position is the function's position, if any.  We return the position
itself as the identity of the found declaration.  A `none` file (not in
the loader cache) yields no declaration. -/
def findFuncOrMethodDeclM (ld : LoaderM) (filename : String) (pos : Nat) : Option Nat :=
  match lookupFileM ld filename with
  | none => none
  | some f => if f.funcDeclPositions.contains pos then some pos else none

/-! ## The collector state (`locate.T`) for functions -/

/-- Model of `funcDesc` of the current `locate` iteration: source package path, the
located declaration (by its position), the computed `token.Position`, and
the accumulated list of implemented interfaces. -/
structure FuncDescM where
  path : String
  decl : Nat
  position : PosKey
  implementsL : List String
deriving DecidableEq

/-- The `HasComment`/`HasFunction`/`HasInterface` hit mask bits. -/
def hasCommentBit : Nat := 1
def hasFunctionBit : Nat := 2
def hasInterfaceBit : Nat := 4

/-- The mutable collections of `locate.T` touched by function recording:
`functions` (keyed by `types.Func.FullName()`) and `dirty` (keyed by
filename). -/
structure TStateM where
  functions : List (String × FuncDescM)
  dirty : List (String × Nat)
deriving DecidableEq

def emptyTState : TStateM := { functions := [], dirty := [] }

/-- Association-list lookup standing in for a Go map read. -/
def assocFind (l : List (String × α)) (k : String) : Option α :=
  (l.find? (fun p => p.1 == k)).map (·.2)

/-- Association-list insert/overwrite standing in for a Go map write. -/
def assocInsert (l : List (String × α)) (k : String) (v : α) : List (String × α) :=
  match l with
  | [] => [(k, v)]
  | (k', v') :: rest =>
    if k' == k then (k, v) :: rest else (k', v') :: assocInsert rest k v

/-- Model of `t.dirty[filename] |= bit`. -/
def dirtyOr (l : List (String × Nat)) (k : String) (bit : Nat) : List (String × Nat) :=
  match assocFind l k with
  | none => assocInsert l k bit
  | some m => assocInsert l k (m ||| bit)

/-- Model of `(*T).addFunctionLocked` of the current iteration: translate the
position, look up the containing file, find the top-level declaration;
silently skip (state unchanged, no error) when there is none; otherwise
store/overwrite the `funcDesc`, appending `implements` to the previously
accumulated list when non-empty. -/
def addFunctionLocked (ld : LoaderM) (st : TStateM) (path : String) (pos : Nat)
    (fqn : String) (impl : String) : TStateM :=
  let position := ld.posOf pos
  let filename := position.filename
  match findFuncOrMethodDeclM ld filename pos with
  | none => st
  | some d =>
    let prior : List String :=
      match assocFind st.functions fqn with
      | none => []
      | some desc => desc.implementsL
    let ifcs : List String := if impl.length > 0 then prior ++ [impl] else []
    { functions := assocInsert st.functions fqn
        { path := path, decl := d, position := position, implementsL := ifcs },
      dirty := dirtyOr st.dirty filename hasFunctionBit }

/-! ## The implementation matcher (`findImplementationInPackage`) -/

/-- The receiver information of a `*types.Func` with `sig.Recv() != nil`:
the result of the `isInterfaceType(pkgPath, rcv.Type())` test (non-nil
exactly for named interface types declared in the scanned package) and
the receiver type's full method set. -/
structure RecvInfo where
  isNamedIfcInPkg : Bool
  methods : List MethodSig
deriving DecidableEq

/-- One `(ident, object)` entry of `types.Info.Defs` as consulted by
`findImplementationInPackage`: the identifier name and position, whether
the object is exported, whether `obj.Parent() != nil` (true for
package-scope functions, false for methods), whether it is a
`*types.Func`, its receiver (none for a free function), and its
`FullName()`. -/
structure FuncObj where
  name : String
  fullName : String
  pos : Nat
  exported : Bool
  hasParent : Bool
  isFunc : Bool
  recv : Option RecvInfo
deriving DecidableEq

/-- The inner loop of `findImplementationInPackage`: for each previously
resolved interface, record the method when the receiver type implements
it. -/
def recordImplsFor (ld : LoaderM) (st : TStateM) (pkgPath : String) (d : FuncObj)
    (r : RecvInfo) : List (String × GoIfc) → TStateM
  | [] => st
  | (ifcPath, ifc) :: rest =>
    let st' :=
      if goImplements r.methods ifc then
        addFunctionLocked ld st pkgPath d.pos d.fullName ifcPath
      else st
    recordImplsFor ld st' pkgPath d r rest

/-- Whether a `Defs` entry passes the filters of the outer loop of
`findImplementationInPackage`: non-nil exported object outside any scope
(`obj.Parent() == nil`), a `*types.Func`, with a receiver that is not a
named interface type of the scanned package. -/
def eligibleConcreteMethod (d : FuncObj) : Bool :=
  d.exported && !d.hasParent && d.isFunc &&
    (match d.recv with
     | none => false
     | some r => !r.isNamedIfcInPkg)

/-- One iteration of the outer loop of `findImplementationInPackage`:
skip nil/unexported/scoped objects, non-functions, free functions and
abstract methods (named interface receivers); for a concrete method run
the inner matching loop. -/
def processDefEntry (ld : LoaderM) (st : TStateM) (pkgPath : String)
    (ifcs : List (String × GoIfc)) (d : FuncObj) : TStateM :=
  if d.exported && !d.hasParent && d.isFunc then
    match d.recv with
    | none => st
    | some r =>
      if r.isNamedIfcInPkg then st
      else recordImplsFor ld st pkgPath d r ifcs
  else st

/-- Model of `(*T).findImplementationInPackage`, given the package's `Defs`
entries (in iteration order) and the resolved-interface collection. -/
def findImplementationInPackage (ld : LoaderM) (st : TStateM) (pkgPath : String)
    (ifcs : List (String × GoIfc)) : List FuncObj → TStateM
  | [] => st
  | d :: rest =>
    findImplementationInPackage ld (processDefEntry ld st pkgPath ifcs d) pkgPath ifcs rest

/-! ## Association-list lemmas shared by several proofs -/

theorem assocFind_insert_self (l : List (String × α)) (k : String) (v : α) :
    assocFind (assocInsert l k v) k = some v := by
  induction l with
  | nil => simp [assocInsert, assocFind]
  | cons hd tl ih =>
    obtain ⟨k', v'⟩ := hd
    by_cases h : k' = k
    · simp [assocInsert, assocFind, h]
    · simp only [assocInsert, beq_iff_eq, h, if_false]
      simp only [assocFind, List.find?] at ih ⊢
      have : (k' == k) = false := beq_false_of_ne h
      simp [this, ih]

theorem assocFind_insert_other (l : List (String × α)) (k k' : String) (v : α)
    (h : k' ≠ k) : assocFind (assocInsert l k v) k' = assocFind l k' := by
  induction l with
  | nil =>
    simp [assocInsert, assocFind, List.find?, beq_false_of_ne (Ne.symm h)]
  | cons hd tl ih =>
    obtain ⟨k₀, v₀⟩ := hd
    by_cases h₀ : k₀ = k
    · subst h₀
      simp only [assocInsert, beq_self_eq_true, if_true]
      simp [assocFind, List.find?, beq_false_of_ne (Ne.symm h),
        beq_false_of_ne (fun hh : k₀ = k' => h hh.symm)]
    · simp only [assocInsert, beq_iff_eq, h₀, if_false]
      simp only [assocFind, List.find?] at ih ⊢
      cases hk : (k₀ == k') with
      | true => simp [hk]
      | false => simp [hk, ih]

/-! ## Behaviour of `addFunctionLocked` -/

/-- The skip branch: a matched function without a corresponding top-level
declaration leaves the state untouched (and raises no error). -/
theorem addFunctionLocked_no_decl (ld : LoaderM) (st : TStateM) (path : String)
    (pos : Nat) (fqn impl : String)
    (h : findFuncOrMethodDeclM ld (ld.posOf pos).filename pos = none) :
    addFunctionLocked ld st path pos fqn impl = st := by
  unfold addFunctionLocked
  simp [h]

theorem addFunctionLocked_functions_found (ld : LoaderM) (st : TStateM) (path : String)
    (pos dp : Nat) (fqn impl : String)
    (h : findFuncOrMethodDeclM ld (ld.posOf pos).filename pos = some dp)
    (himpl : impl.length > 0) :
    (addFunctionLocked ld st path pos fqn impl).functions =
      assocInsert st.functions fqn
        { path := path, decl := dp, position := ld.posOf pos,
          implementsL :=
            (match assocFind st.functions fqn with
             | none => []
             | some desc => desc.implementsL) ++ [impl] } := by
  unfold addFunctionLocked
  simp [h, himpl]

theorem addFunctionLocked_other_key (ld : LoaderM) (st : TStateM) (path : String)
    (pos : Nat) (fqn impl k : String) (hk : k ≠ fqn) :
    assocFind (addFunctionLocked ld st path pos fqn impl).functions k =
      assocFind st.functions k := by
  cases h : findFuncOrMethodDeclM ld (ld.posOf pos).filename pos with
  | none => simp [addFunctionLocked, h]
  | some dp =>
    simp only [addFunctionLocked, h]
    exact assocFind_insert_other _ _ _ _ hk

/-! ## Behaviour of the implementation matcher -/

/-- The list of interface paths a receiver with method set `ms` satisfies,
among the resolved interfaces, in collection order. -/
def satisfiedPaths (ms : List MethodSig) (ifcs : List (String × GoIfc)) : List String :=
  ifcs.filterMap (fun q => if goImplements ms q.2 then some q.1 else none)

theorem satisfiedPaths_cons (ms : List MethodSig) (q : String × GoIfc)
    (rest : List (String × GoIfc)) :
    satisfiedPaths ms (q :: rest) =
      if goImplements ms q.2 then q.1 :: satisfiedPaths ms rest
      else satisfiedPaths ms rest := by
  by_cases h : goImplements ms q.2 <;> simp [satisfiedPaths, h]

theorem recordImplsFor_other_key (ld : LoaderM) (st : TStateM) (p : String)
    (d : FuncObj) (r : RecvInfo) (ifcs : List (String × GoIfc)) (k : String)
    (hk : k ≠ d.fullName) :
    assocFind (recordImplsFor ld st p d r ifcs).functions k =
      assocFind st.functions k := by
  induction ifcs generalizing st with
  | nil => rfl
  | cons q rest ih =>
    obtain ⟨qp, qi⟩ := q
    show assocFind (recordImplsFor ld _ p d r rest).functions k = _
    by_cases h : goImplements r.methods qi
    · simp only [h, if_true]
      rw [ih, addFunctionLocked_other_key _ _ _ _ _ _ _ hk]
    · simp only [h, if_false]
      exact ih st

theorem recordImplsFor_present (ld : LoaderM) (p : String) (d : FuncObj)
    (r : RecvInfo) (ifcs : List (String × GoIfc)) (dp : Nat)
    (hdecl : findFuncOrMethodDeclM ld (ld.posOf d.pos).filename d.pos = some dp)
    (hpaths : ∀ q ∈ ifcs, (q.1 : String).length > 0) :
    ∀ (st : TStateM) (desc : FuncDescM),
      assocFind st.functions d.fullName = some desc →
      assocFind (recordImplsFor ld st p d r ifcs).functions d.fullName =
        (if satisfiedPaths r.methods ifcs = [] then some desc
         else some { path := p, decl := dp, position := ld.posOf d.pos,
                     implementsL := desc.implementsL ++ satisfiedPaths r.methods ifcs }) := by
  induction ifcs with
  | nil => intro st desc h; simp [recordImplsFor, satisfiedPaths, h]
  | cons q rest ih =>
    intro st desc h
    obtain ⟨qp, qi⟩ := q
    have hq : qp.length > 0 := hpaths (qp, qi) (List.mem_cons_self _ _)
    have hrest : ∀ q' ∈ rest, (q'.1 : String).length > 0 :=
      fun q' hq' => hpaths q' (List.mem_cons_of_mem _ hq')
    rw [satisfiedPaths_cons]
    show assocFind (recordImplsFor ld _ p d r rest).functions d.fullName = _
    by_cases himp : goImplements r.methods qi
    · simp only [himp, if_true]
      have hfuncs := addFunctionLocked_functions_found ld st p d.pos dp d.fullName qp hdecl hq
      set desc' : FuncDescM :=
        { path := p, decl := dp, position := ld.posOf d.pos,
          implementsL := desc.implementsL ++ [qp] } with hdesc'
      have hfind : assocFind (addFunctionLocked ld st p d.pos d.fullName qp).functions
          d.fullName = some desc' := by
        rw [hfuncs, h, hdesc']
        exact assocFind_insert_self _ _ _
      rw [ih hrest _ _ hfind]
      cases hrp : satisfiedPaths r.methods rest with
      | nil => simp [hdesc']
      | cons a as => simp [hdesc']
    · simp only [himp, if_false]
      exact ih hrest st desc h

theorem recordImplsFor_absent (ld : LoaderM) (p : String) (d : FuncObj)
    (r : RecvInfo) (ifcs : List (String × GoIfc)) (dp : Nat)
    (hdecl : findFuncOrMethodDeclM ld (ld.posOf d.pos).filename d.pos = some dp)
    (hpaths : ∀ q ∈ ifcs, (q.1 : String).length > 0)
    (st : TStateM) (h : assocFind st.functions d.fullName = none) :
    assocFind (recordImplsFor ld st p d r ifcs).functions d.fullName =
      (if satisfiedPaths r.methods ifcs = [] then none
       else some { path := p, decl := dp, position := ld.posOf d.pos,
                   implementsL := satisfiedPaths r.methods ifcs }) := by
  induction ifcs generalizing st with
  | nil => simp [recordImplsFor, satisfiedPaths, h]
  | cons q rest ih =>
    obtain ⟨qp, qi⟩ := q
    have hq : qp.length > 0 := hpaths (qp, qi) (List.mem_cons_self _ _)
    have hrest : ∀ q' ∈ rest, (q'.1 : String).length > 0 :=
      fun q' hq' => hpaths q' (List.mem_cons_of_mem _ hq')
    rw [satisfiedPaths_cons]
    show assocFind (recordImplsFor ld _ p d r rest).functions d.fullName = _
    by_cases himp : goImplements r.methods qi
    · simp only [himp, if_true]
      have hfuncs := addFunctionLocked_functions_found ld st p d.pos dp d.fullName qp hdecl hq
      set desc' : FuncDescM :=
        { path := p, decl := dp, position := ld.posOf d.pos,
          implementsL := [qp] } with hdesc'
      have hfind : assocFind (addFunctionLocked ld st p d.pos d.fullName qp).functions
          d.fullName = some desc' := by
        rw [hfuncs, h, hdesc']
        exact assocFind_insert_self _ _ _
      rw [recordImplsFor_present ld p d r rest dp hdecl hrest _ _ hfind]
      cases hrp : satisfiedPaths r.methods rest with
      | nil => simp [hdesc']
      | cons a as => simp [hdesc']
    · simp only [himp, if_false]
      exact ih hrest st h

theorem processDefEntry_other_key (ld : LoaderM) (st : TStateM) (p : String)
    (ifcs : List (String × GoIfc)) (d : FuncObj) (k : String) (hk : k ≠ d.fullName) :
    assocFind (processDefEntry ld st p ifcs d).functions k = assocFind st.functions k := by
  unfold processDefEntry
  by_cases h : (d.exported && !d.hasParent && d.isFunc) = true
  · simp only [h, if_true]
    cases hr : d.recv with
    | none => rfl
    | some r =>
      by_cases hi : r.isNamedIfcInPkg
      · simp [hi]
      · simp only [hi, if_false, Bool.false_eq_true]
        exact recordImplsFor_other_key ld st p d r ifcs k hk
  · simp [h]

theorem processDefEntry_eligible (ld : LoaderM) (st : TStateM) (p : String)
    (ifcs : List (String × GoIfc)) (d : FuncObj) (r : RecvInfo)
    (he : d.exported = true) (hp : d.hasParent = false) (hf : d.isFunc = true)
    (hr : d.recv = some r) (hi : r.isNamedIfcInPkg = false) :
    processDefEntry ld st p ifcs d = recordImplsFor ld st p d r ifcs := by
  unfold processDefEntry
  simp [he, hp, hf, hr, hi]

theorem findImplementationInPackage_other_key (ld : LoaderM) (p : String)
    (ifcs : List (String × GoIfc)) :
    ∀ (defs : List FuncObj) (st : TStateM) (k : String),
      (∀ d' ∈ defs, d'.fullName ≠ k) →
      assocFind (findImplementationInPackage ld st p ifcs defs).functions k =
        assocFind st.functions k := by
  intro defs
  induction defs with
  | nil => intro st k _; rfl
  | cons d rest ih =>
    intro st k hk
    show assocFind (findImplementationInPackage ld (processDefEntry ld st p ifcs d) p ifcs rest).functions k = _
    rw [ih _ _ (fun d' hd' => hk d' (List.mem_cons_of_mem _ hd'))]
    exact processDefEntry_other_key ld st p ifcs d k
      (fun h => hk d (List.mem_cons_self _ _) h.symm)

/-- The implements list recorded for a fully-qualified name in the final
collection (empty when the name was never recorded). -/
def recordedIfcs (st : TStateM) (fqn : String) : List String :=
  match assocFind st.functions fqn with
  | none => []
  | some desc => desc.implementsL

/-- Characterization of a single eligible concrete method's record after
the package scan: its recorded interface list is exactly the list of
resolved contracts whose method sets its receiver's method set covers. -/
theorem findImplementationInPackage_char (ld : LoaderM) (p : String)
    (ifcs : List (String × GoIfc)) (d : FuncObj) (r : RecvInfo) (dp : Nat)
    (he : d.exported = true) (hp : d.hasParent = false) (hf : d.isFunc = true)
    (hr : d.recv = some r) (hi : r.isNamedIfcInPkg = false)
    (hdecl : findFuncOrMethodDeclM ld (ld.posOf d.pos).filename d.pos = some dp)
    (hpaths : ∀ q ∈ ifcs, (q.1 : String).length > 0) :
    ∀ (defs : List FuncObj) (st : TStateM),
      d ∈ defs →
      (defs.map FuncObj.fullName).Nodup →
      assocFind st.functions d.fullName = none →
      assocFind (findImplementationInPackage ld st p ifcs defs).functions d.fullName =
        (if satisfiedPaths r.methods ifcs = [] then none
         else some { path := p, decl := dp, position := ld.posOf d.pos,
                     implementsL := satisfiedPaths r.methods ifcs }) := by
  intro defs
  induction defs with
  | nil => intro st hmem; exact absurd hmem (List.not_mem_nil d)
  | cons d₀ rest ih =>
    intro st hmem hnodup habs
    have hnodup' : (rest.map FuncObj.fullName).Nodup := (List.nodup_cons.mp hnodup).2
    rcases List.mem_cons.mp hmem with hd | hd
    · subst hd
      show assocFind (findImplementationInPackage ld (processDefEntry ld st p ifcs d) p ifcs rest).functions d.fullName = _
      have hrest_ne : ∀ d' ∈ rest, d'.fullName ≠ d.fullName := by
        intro d' hd' hcontra
        exact (List.nodup_cons.mp hnodup).1 (hcontra ▸ List.mem_map_of_mem FuncObj.fullName hd')
      rw [findImplementationInPackage_other_key ld p ifcs rest _ _ hrest_ne]
      rw [processDefEntry_eligible ld st p ifcs d r he hp hf hr hi]
      exact recordImplsFor_absent ld p d r ifcs dp hdecl hpaths st habs
    · show assocFind (findImplementationInPackage ld (processDefEntry ld st p ifcs d₀) p ifcs rest).functions d.fullName = _
      have hne : d.fullName ≠ d₀.fullName := by
        intro hcontra
        exact (List.nodup_cons.mp hnodup).1 (hcontra ▸ List.mem_map_of_mem FuncObj.fullName hd)
      have habs' : assocFind (processDefEntry ld st p ifcs d₀).functions d.fullName = none := by
        rw [processDefEntry_other_key ld st p ifcs d₀ _ hne]; exact habs
      exact ih _ hd hnodup' habs'

/-- Pairs with the same key in a list whose keys are `Nodup` agree. -/
theorem nodup_fst_pair_eq {β : Type} (l : List (String × β)) (hnd : (l.map Prod.fst).Nodup)
    (a : String) (b c : β) (hb : (a, b) ∈ l) (hc : (a, c) ∈ l) : b = c := by
  induction l with
  | nil => exact absurd hb (List.not_mem_nil _)
  | cons q rest ih =>
    have hq1 : q.1 ∉ rest.map Prod.fst := (List.nodup_cons.mp hnd).1
    rcases List.mem_cons.mp hb with hb' | hb' <;> rcases List.mem_cons.mp hc with hc' | hc'
    · exact (Prod.ext_iff.mp (hb'.trans hc'.symm)).2
    · exfalso
      apply hq1
      rw [← hb']
      show (a, c).1 ∈ rest.map Prod.fst
      exact List.mem_map_of_mem Prod.fst hc'
    · exfalso
      apply hq1
      rw [← hc']
      show (a, b).1 ∈ rest.map Prod.fst
      exact List.mem_map_of_mem Prod.fst hb'
    · exact ih (List.nodup_cons.mp hnd).2 hb' hc'

theorem mem_satisfiedPaths_iff (ms : List MethodSig) (ifcs : List (String × GoIfc))
    (hnd : (ifcs.map Prod.fst).Nodup) (ifcPath : String) (ifc : GoIfc)
    (hmem : (ifcPath, ifc) ∈ ifcs) :
    ifcPath ∈ satisfiedPaths ms ifcs ↔ goImplements ms ifc = true := by
  constructor
  · intro h
    simp only [satisfiedPaths, List.mem_filterMap] at h
    obtain ⟨q, hq, hval⟩ := h
    by_cases himp : goImplements ms q.2
    · simp only [himp, if_true, Option.some.injEq] at hval
      have : q = (ifcPath, ifc) := by
        obtain ⟨q1, q2⟩ := q
        have h1 : q1 = ifcPath := hval
        subst h1
        have := nodup_fst_pair_eq ifcs hnd q1 q2 ifc hq hmem
        rw [this]
      rw [this] at himp
      exact himp
    · simp [himp] at hval
  · intro h
    simp only [satisfiedPaths, List.mem_filterMap]
    exact ⟨(ifcPath, ifc), hmem, by simp [h]⟩

/-! ## Concrete scenario: the `data` contracts and `impl` implementers

These mirror `locate/testdata/data/interfaces.go` (Ifc1, Ifc2, Ifc3) and
`locate/testdata/impl/impls.go` (Impl1, impl2, Impl12, Other,
WithInterfaceField) of the repository. -/

def sigM1 : MethodSig := { name := "M1", params := [], results := [] }
def sigM2 : MethodSig := { name := "M2", params := ["string"], results := [] }
def sigM3 : MethodSig := { name := "M3", params := ["int"], results := ["error"] }

def dataIfc1 : GoIfc := { methods := [sigM1, sigM2], embeddeds := [] }
def dataIfc2 : GoIfc := { methods := [sigM3], embeddeds := [] }
def dataIfc3 : GoIfc :=
  { methods := [sigM1, sigM2, sigM3],
    embeddeds := [{ isNamed := true, name := "Ifc1", pkgPath := "data" },
                  { isNamed := true, name := "Ifc2", pkgPath := "data" }] }

def resolvedIfcs : List (String × GoIfc) :=
  [("data.Ifc1", dataIfc1), ("data.Ifc2", dataIfc2), ("data.Ifc3", dataIfc3)]

/-- The loader view of `impl/impls.go`: the top-level `FuncDecl` name
positions of the seven concrete methods. -/
def implLoader : LoaderM :=
  { posOf := fun n => { filename := "impl/impls.go", offset := n },
    files := [{ name := "impl/impls.go", funcDeclPositions := [5, 9, 15, 22, 26, 30, 37] }] }

def recvImpl1 : RecvInfo := { isNamedIfcInPkg := false, methods := [sigM1, sigM2] }
def recvImpl2 : RecvInfo := { isNamedIfcInPkg := false, methods := [sigM3] }
def recvImpl12 : RecvInfo := { isNamedIfcInPkg := false, methods := [sigM1, sigM2, sigM3] }
def recvOther : RecvInfo := { isNamedIfcInPkg := false, methods := [sigM1] }

/-- The anonymous interface type of `WithInterfaceField.B`: an interface
receiver, but not a named interface of the package, so
`isInterfaceType` does not recognise it. -/
def recvAnonIfc : RecvInfo := { isNamedIfcInPkg := false, methods := [sigM1, sigM2] }

def impl1M1 : FuncObj :=
  { name := "M1", fullName := "(*impl.Impl1).M1", pos := 5, exported := true,
    hasParent := false, isFunc := true, recv := some recvImpl1 }
def impl1M2 : FuncObj :=
  { name := "M2", fullName := "(*impl.Impl1).M2", pos := 9, exported := true,
    hasParent := false, isFunc := true, recv := some recvImpl1 }
def impl2M3 : FuncObj :=
  { name := "M3", fullName := "(*impl.impl2).M3", pos := 15, exported := true,
    hasParent := false, isFunc := true, recv := some recvImpl2 }
def impl12M1 : FuncObj :=
  { name := "M1", fullName := "(*impl.Impl12).M1", pos := 22, exported := true,
    hasParent := false, isFunc := true, recv := some recvImpl12 }
def impl12M2 : FuncObj :=
  { name := "M2", fullName := "(*impl.Impl12).M2", pos := 26, exported := true,
    hasParent := false, isFunc := true, recv := some recvImpl12 }
def impl12M3 : FuncObj :=
  { name := "M3", fullName := "(*impl.Impl12).M3", pos := 30, exported := true,
    hasParent := false, isFunc := true, recv := some recvImpl12 }
def otherM1 : FuncObj :=
  { name := "M1", fullName := "(*impl.Other).M1", pos := 37, exported := true,
    hasParent := false, isFunc := true, recv := some recvOther }

/-- The struct type name `Impl1` itself: a package-scope `*types.TypeName`,
not a `*types.Func`. -/
def impl1TypeObj : FuncObj :=
  { name := "Impl1", fullName := "impl.Impl1", pos := 3, exported := true,
    hasParent := true, isFunc := false, recv := none }

/-- The abstract method `M1` of the anonymous interface type of
`WithInterfaceField.B`: matched by the scan (its receiver is not a named
package interface) but without a top-level declaration in the file. -/
def anonFieldM1 : FuncObj :=
  { name := "M1", fullName := "(impl.WithInterfaceField.B).M1", pos := 43, exported := true,
    hasParent := false, isFunc := true, recv := some recvAnonIfc }
def anonFieldM2 : FuncObj :=
  { name := "M2", fullName := "(impl.WithInterfaceField.B).M2", pos := 44, exported := true,
    hasParent := false, isFunc := true, recv := some recvAnonIfc }

def implDefs : List FuncObj :=
  [impl1TypeObj, impl1M1, impl1M2, impl2M3, impl12M1, impl12M2, impl12M3,
   otherM1, anonFieldM1, anonFieldM2]

/-- The final collector state after scanning the `impl` package against
the three resolved contracts. -/
def implScanResult : TStateM :=
  findImplementationInPackage implLoader emptyTState "impl" resolvedIfcs implDefs

example : recordedIfcs implScanResult "(*impl.Impl1).M1" = ["data.Ifc1"] := by decide
example : recordedIfcs implScanResult "(*impl.Impl12).M3" =
    ["data.Ifc1", "data.Ifc2", "data.Ifc3"] := by decide
example : assocFind implScanResult.functions "(*impl.Other).M1" = none := by decide
example : assocFind implScanResult.functions "(impl.WithInterfaceField.B).M1" = none := by decide

/-- C1: implementation matching is purely structural over method sets.
For every exported method with a concrete (non-interface) receiver in a
scanned package (i.e. an eligible `Defs` entry with a located top-level
declaration), and every previously resolved contract, the (method,
contract) pair is recorded if and only if the receiver type's method set
is a superset of the contract's method set.  In particular, with Ifc1,
Ifc2, Ifc3 resolved and the `impl` package scanned, Impl1's methods are
reported as satisfying exactly the contract set containing Ifc1 and
Impl12's methods as satisfying exactly Ifc1, Ifc2 and Ifc3. -/
theorem C1_structural_implementation_matching
    (ld : LoaderM) (p : String) (ifcs : List (String × GoIfc)) (defs : List FuncObj)
    (d : FuncObj) (r : RecvInfo) (dp : Nat) (ifcPath : String) (ifc : GoIfc)
    (he : d.exported = true) (hp : d.hasParent = false) (hf : d.isFunc = true)
    (hr : d.recv = some r) (hi : r.isNamedIfcInPkg = false)
    (hdecl : findFuncOrMethodDeclM ld (ld.posOf d.pos).filename d.pos = some dp)
    (hpaths : ∀ q ∈ ifcs, (q.1 : String).length > 0)
    (hmem : d ∈ defs) (hnodup : (defs.map FuncObj.fullName).Nodup)
    (hnd : (ifcs.map Prod.fst).Nodup) (hifc : (ifcPath, ifc) ∈ ifcs) :
    (ifcPath ∈ recordedIfcs (findImplementationInPackage ld emptyTState p ifcs defs) d.fullName
      ↔ goImplements r.methods ifc = true)
    ∧ recordedIfcs implScanResult "(*impl.Impl1).M1" = ["data.Ifc1"]
    ∧ recordedIfcs implScanResult "(*impl.Impl1).M2" = ["data.Ifc1"]
    ∧ recordedIfcs implScanResult "(*impl.Impl12).M1" = ["data.Ifc1", "data.Ifc2", "data.Ifc3"]
    ∧ recordedIfcs implScanResult "(*impl.Impl12).M2" = ["data.Ifc1", "data.Ifc2", "data.Ifc3"]
    ∧ recordedIfcs implScanResult "(*impl.Impl12).M3" = ["data.Ifc1", "data.Ifc2", "data.Ifc3"]
    ∧ recordedIfcs implScanResult "(*impl.impl2).M3" = ["data.Ifc2"]
    ∧ assocFind implScanResult.functions "(*impl.Other).M1" = none := by
  refine ⟨?_, by decide, by decide, by decide, by decide, by decide, by decide, by decide⟩
  have hchar := findImplementationInPackage_char ld p ifcs d r dp he hp hf hr hi hdecl hpaths
    defs emptyTState hmem hnodup (by rfl)
  have hrec : recordedIfcs (findImplementationInPackage ld emptyTState p ifcs defs) d.fullName =
      satisfiedPaths r.methods ifcs := by
    unfold recordedIfcs
    rw [hchar]
    cases hs : satisfiedPaths r.methods ifcs with
    | nil => simp
    | cons a as => simp
  rw [hrec]
  exact mem_satisfiedPaths_iff r.methods ifcs hnd ifcPath ifc hifc

/-- Witness for C1 at the concrete scenario: Impl1.M1 against Ifc1. -/
theorem C1_structural_implementation_matching_witness :
    (("data.Ifc1" ∈ recordedIfcs (findImplementationInPackage implLoader emptyTState "impl"
        resolvedIfcs implDefs) impl1M1.fullName
      ↔ goImplements recvImpl1.methods dataIfc1 = true)
    ∧ recordedIfcs implScanResult "(*impl.Impl1).M1" = ["data.Ifc1"]
    ∧ recordedIfcs implScanResult "(*impl.Impl1).M2" = ["data.Ifc1"]
    ∧ recordedIfcs implScanResult "(*impl.Impl12).M1" = ["data.Ifc1", "data.Ifc2", "data.Ifc3"]
    ∧ recordedIfcs implScanResult "(*impl.Impl12).M2" = ["data.Ifc1", "data.Ifc2", "data.Ifc3"]
    ∧ recordedIfcs implScanResult "(*impl.Impl12).M3" = ["data.Ifc1", "data.Ifc2", "data.Ifc3"]
    ∧ recordedIfcs implScanResult "(*impl.impl2).M3" = ["data.Ifc2"]
    ∧ assocFind implScanResult.functions "(*impl.Other).M1" = none) :=
  C1_structural_implementation_matching implLoader "impl" resolvedIfcs implDefs
    impl1M1 recvImpl1 5 "data.Ifc1" dataIfc1
    (by decide) (by decide) (by decide) (by decide) (by decide) (by decide)
    (by decide) (by decide) (by decide) (by decide) (by decide)

/-! ## Lexicographic string comparison

Go's `<` on strings is lexicographic byte comparison.  We model it as
lexicographic comparison of the character sequences (which agrees on the
ASCII file paths at issue); it is computable by the kernel. -/

def chListLt : List Char → List Char → Bool
  | _, [] => false
  | [], _ :: _ => true
  | a :: as, b :: bs =>
    if a.toNat < b.toNat then true
    else if b.toNat < a.toNat then false
    else chListLt as bs

/-- The string order used by the sorter and file walks. -/
def strLt (a b : String) : Prop := chListLt a.data b.data = true

instance : DecidableRel strLt := fun a b => by
  unfold strLt; infer_instance

theorem charToNat_inj (a b : Char) (h : a.toNat = b.toNat) : a = b := by
  have ha := Char.ofNat_toNat a
  have hb := Char.ofNat_toNat b
  rw [← ha, ← hb, h]

theorem chListLt_irrefl : ∀ l, chListLt l l = false
  | [] => rfl
  | a :: as => by simp [chListLt, chListLt_irrefl as]

theorem chListLt_cons_iff (a b : Char) (as bs : List Char) :
    chListLt (a :: as) (b :: bs) = true ↔
      a.toNat < b.toNat ∨ (a.toNat = b.toNat ∧ chListLt as bs = true) := by
  simp only [chListLt]
  by_cases h1 : a.toNat < b.toNat
  · simp [h1]
  · by_cases h2 : b.toNat < a.toNat
    · simp only [h1, h2, if_true, if_false]
      constructor
      · intro h; exact absurd h (by simp)
      · intro h
        exfalso
        rcases h with h | ⟨h, _⟩
        · exact h
        · omega
    · have heq : a.toNat = b.toNat := by omega
      simp [h1, h2, heq]

theorem chListLt_trans : ∀ a b c : List Char, chListLt a b = true →
    chListLt b c = true → chListLt a c = true := by
  intro a
  induction a with
  | nil =>
    intro b c h₁ h₂
    cases c with
    | nil => cases b <;> simp [chListLt] at h₂
    | cons c0 cs => simp [chListLt]
  | cons a0 as ih =>
    intro b c h₁ h₂
    cases b with
    | nil => simp [chListLt] at h₁
    | cons b0 bs =>
      cases c with
      | nil => simp [chListLt] at h₂
      | cons c0 cs =>
        rw [chListLt_cons_iff] at h₁ h₂ ⊢
        rcases h₁ with h₁ | ⟨h₁, h₁'⟩ <;> rcases h₂ with h₂ | ⟨h₂, h₂'⟩
        · exact Or.inl (by omega)
        · exact Or.inl (by omega)
        · exact Or.inl (by omega)
        · exact Or.inr ⟨by omega, ih bs cs h₁' h₂'⟩

theorem chListLt_asymm : ∀ a b : List Char, chListLt a b = true →
    chListLt b a = true → False := by
  intro a
  induction a with
  | nil => intro b h₁ h₂; cases b <;> simp [chListLt] at h₁ h₂
  | cons a0 as ih =>
    intro b h₁ h₂
    cases b with
    | nil => simp [chListLt] at h₁
    | cons b0 bs =>
      rw [chListLt_cons_iff] at h₁ h₂
      rcases h₁ with h₁ | ⟨h₁, h₁'⟩ <;> rcases h₂ with h₂ | ⟨h₂, h₂'⟩
      · omega
      · omega
      · omega
      · exact ih bs h₁' h₂'

theorem chListLt_trichotomy : ∀ a b : List Char,
    chListLt a b = true ∨ a = b ∨ chListLt b a = true := by
  intro a
  induction a with
  | nil =>
    intro b
    cases b with
    | nil => exact Or.inr (Or.inl rfl)
    | cons b0 bs => exact Or.inl (by simp [chListLt])
  | cons a0 as ih =>
    intro b
    cases b with
    | nil => exact Or.inr (Or.inr (by simp [chListLt]))
    | cons b0 bs =>
      by_cases hab : a0.toNat < b0.toNat
      · exact Or.inl (by simp [chListLt, hab])
      · by_cases hba : b0.toNat < a0.toNat
        · exact Or.inr (Or.inr (by simp [chListLt, hba]))
        · have heq : a0 = b0 := charToNat_inj _ _ (by omega)
          subst heq
          rcases ih bs with h | h | h
          · exact Or.inl (by simp [chListLt, h])
          · exact Or.inr (Or.inl (by rw [h]))
          · exact Or.inr (Or.inr (by simp [chListLt, h]))

theorem strLt_trans (a b c : String) (h₁ : strLt a b) (h₂ : strLt b c) : strLt a c :=
  chListLt_trans a.data b.data c.data h₁ h₂

theorem strLt_asymm (a b : String) (h₁ : strLt a b) (h₂ : strLt b a) : False :=
  chListLt_asymm a.data b.data h₁ h₂

theorem strLt_irrefl (a : String) : ¬strLt a a := by
  unfold strLt
  simp [chListLt_irrefl]

theorem strLt_trichotomy (a b : String) : strLt a b ∨ a = b ∨ strLt b a := by
  rcases chListLt_trichotomy a.data b.data with h | h | h
  · exact Or.inl h
  · refine Or.inr (Or.inl ?_)
    cases a; cases b
    exact congrArg String.mk h
  · exact Or.inr (Or.inr h)

/-! ## The ordering layer (`sortByPos` / `sorter`) and walks

`sorter` sorts a slice of `(name, position, payload)` records with the
comparator "filenames equal → compare offsets, otherwise compare
filenames".  We model it as a comparison sort with the corresponding
non-strict order (which preserves the input order of records whose keys
tie, as Go's slice sort does for the small slices at issue). -/

structure SortEntry (α : Type) where
  name : String
  pos : PosKey
  payload : α
deriving DecidableEq

/-- The non-strict order induced by the `sorter` comparator. -/
def posKeyLE (a b : PosKey) : Prop :=
  strLt a.filename b.filename ∨ (a.filename = b.filename ∧ a.offset ≤ b.offset)

/-- The strict `(filename, offset)` order. -/
def posKeyLT (a b : PosKey) : Prop :=
  strLt a.filename b.filename ∨ (a.filename = b.filename ∧ a.offset < b.offset)

instance : DecidableRel posKeyLE := fun a b => by
  unfold posKeyLE; infer_instance

instance : DecidableRel posKeyLT := fun a b => by
  unfold posKeyLT; infer_instance

def entryLE {α : Type} (a b : SortEntry α) : Prop := posKeyLE a.pos b.pos

def entryLT {α : Type} (a b : SortEntry α) : Prop := posKeyLT a.pos b.pos

instance {α : Type} : DecidableRel (entryLE (α := α)) := fun a b => by
  unfold entryLE; infer_instance

instance {α : Type} : IsTotal (SortEntry α) entryLE where
  total a b := by
    unfold entryLE posKeyLE
    rcases strLt_trichotomy a.pos.filename b.pos.filename with h | h | h
    · exact Or.inl (Or.inl h)
    · rcases Nat.le_total a.pos.offset b.pos.offset with h' | h'
      · exact Or.inl (Or.inr ⟨h, h'⟩)
      · exact Or.inr (Or.inr ⟨h.symm, h'⟩)
    · exact Or.inr (Or.inl h)

instance {α : Type} : IsTrans (SortEntry α) entryLE where
  trans a b c hab hbc := by
    unfold entryLE posKeyLE at *
    rcases hab with h₁ | ⟨h₁, h₁'⟩ <;> rcases hbc with h₂ | ⟨h₂, h₂'⟩
    · exact Or.inl (strLt_trans _ _ _ h₁ h₂)
    · exact Or.inl (h₂ ▸ h₁)
    · exact Or.inl (h₁ ▸ h₂)
    · exact Or.inr ⟨h₁.trans h₂, h₁'.trans h₂'⟩

instance {α : Type} : IsAntisymm (SortEntry α) entryLT where
  antisymm a b hab hba := by
    exfalso
    unfold entryLT posKeyLT at *
    rcases hab with h₁ | ⟨h₁, h₁'⟩ <;> rcases hba with h₂ | ⟨h₂, h₂'⟩
    · exact strLt_asymm _ _ h₁ h₂
    · exact strLt_irrefl _ (h₂ ▸ h₁)
    · exact strLt_irrefl _ (h₁ ▸ h₂)
    · omega

/-- Model of `sorter`: sort the collected records by `(filename, offset)`. -/
def sorterM {α : Type} (l : List (SortEntry α)) : List (SortEntry α) :=
  List.insertionSort entryLE l

theorem sorterM_sorted {α : Type} (l : List (SortEntry α)) :
    List.Sorted entryLE (sorterM l) :=
  List.sorted_insertionSort entryLE l

theorem sorterM_perm {α : Type} (l : List (SortEntry α)) : (sorterM l).Perm l :=
  List.perm_insertionSort entryLE l

/-- An `entryLE`-sorted list whose position keys are pairwise distinct is
strictly sorted. -/
theorem sorted_entryLT_of_sorted_entryLE {α : Type} (l : List (SortEntry α))
    (hs : List.Sorted entryLE l) (hkeys : (l.map SortEntry.pos).Nodup) :
    List.Sorted entryLT l := by
  have hne : l.Pairwise (fun a b => a.pos ≠ b.pos) := List.pairwise_map.mp hkeys
  refine (hs.and hne).imp ?_
  intro a b h
  obtain ⟨hle, hne'⟩ := h
  unfold entryLE posKeyLE at hle
  unfold entryLT posKeyLT
  rcases hle with h₁ | ⟨h₁, h₁'⟩
  · exact Or.inl h₁
  · refine Or.inr ⟨h₁, lt_of_le_of_ne h₁' (fun hoff => hne' ?_)⟩
    calc a.pos = ⟨a.pos.filename, a.pos.offset⟩ := rfl
      _ = ⟨b.pos.filename, b.pos.offset⟩ := by rw [h₁, hoff]
      _ = b.pos := rfl

/-- With pairwise-distinct position keys, the sorted output is the unique
sorted permutation: any two iteration orders of the same collection sort
to the same sequence. -/
theorem sorterM_deterministic {α : Type} (l₁ l₂ : List (SortEntry α))
    (hperm : l₁.Perm l₂) (hkeys : (l₁.map SortEntry.pos).Nodup) :
    sorterM l₁ = sorterM l₂ := by
  have hp : (sorterM l₁).Perm (sorterM l₂) :=
    (sorterM_perm l₁).trans (hperm.trans (sorterM_perm l₂).symm)
  have hknd₁ : ((sorterM l₁).map SortEntry.pos).Nodup :=
    hkeys.perm ((sorterM_perm l₁).map SortEntry.pos).symm
  have hknd₂ : ((sorterM l₂).map SortEntry.pos).Nodup :=
    (hkeys.perm (hperm.map SortEntry.pos)).perm ((sorterM_perm l₂).map SortEntry.pos).symm
  have hlt₁ := sorted_entryLT_of_sorted_entryLE _ (sorterM_sorted l₁) hknd₁
  have hlt₂ := sorted_entryLT_of_sorted_entryLE _ (sorterM_sorted l₂) hknd₂
  exact List.eq_of_perm_of_sorted hp hlt₁ hlt₂

/-! ## The three ordered walks -/

/-- Model of `interfaceDesc` of the current iteration. -/
structure IfcDescM where
  path : String
  ifc : GoIfc
  decl : Nat
  position : PosKey
deriving DecidableEq

/-- Model of `commentDesc`: the matched pattern, the file, and the comment group's
position. -/
structure CommentDescM where
  re : String
  filename : String
  position : PosKey
deriving DecidableEq

/-- Model of `WalkFunctions`: snapshot the `functions` map in iteration order, sort
by position, and yield the entries. -/
def walkFunctionsM (functions : List (String × FuncDescM)) : List (SortEntry FuncDescM) :=
  sorterM (functions.map (fun kv => { name := kv.1, pos := kv.2.position, payload := kv.2 }))

/-- Model of `WalkInterfaces`: same discipline over the `interfaces` map. -/
def walkInterfacesM (interfaces : List (String × IfcDescM)) : List (SortEntry IfcDescM) :=
  sorterM (interfaces.map (fun kv => { name := kv.1, pos := kv.2.position, payload := kv.2 }))

/-- Model of `WalkComments`: flatten the per-pattern comment lists in map iteration
order, sort by position, and yield the entries. -/
def walkCommentsM (comments : List (String × List CommentDescM)) : List (SortEntry CommentDescM) :=
  sorterM ((comments.flatMap (·.2)).map
    (fun c => { name := c.filename, pos := c.position, payload := c }))

/-! ## C10: stored function descriptors always carry a located declaration -/

theorem findFuncOrMethodDeclM_pos (ld : LoaderM) (fn : String) (pos dp : Nat)
    (h : findFuncOrMethodDeclM ld fn pos = some dp) : dp = pos := by
  cases hf : lookupFileM ld fn with
  | none => simp [findFuncOrMethodDeclM, hf] at h
  | some f =>
    by_cases hc : f.funcDeclPositions.contains pos
    · simp [findFuncOrMethodDeclM, hf, hc] at h
      omega
    · simp [findFuncOrMethodDeclM, hf, hc] at h
      omega

theorem mem_assocInsert {α : Type} (l : List (String × α)) (k : String) (v : α)
    (kv : String × α) (h : kv ∈ assocInsert l k v) : kv = (k, v) ∨ kv ∈ l := by
  induction l with
  | nil => simpa [assocInsert] using h
  | cons hd tl ih =>
    obtain ⟨k', v'⟩ := hd
    by_cases hk : k' = k
    · simp only [assocInsert, hk, beq_self_eq_true, if_true] at h
      rcases List.mem_cons.mp h with h' | h'
      · exact Or.inl h'
      · exact Or.inr (List.mem_cons_of_mem _ h')
    · simp only [assocInsert, beq_iff_eq, hk, if_false] at h
      rcases List.mem_cons.mp h with h' | h'
      · exact Or.inr (h' ▸ List.mem_cons_self _ _)
      · rcases ih h' with h'' | h''
        · exact Or.inl h''
        · exact Or.inr (List.mem_cons_of_mem _ h'')

/-- The full result of `addFunctionLocked` when the declaration is found. -/
theorem addFunctionLocked_found (ld : LoaderM) (st : TStateM) (path : String)
    (pos : Nat) (fqn impl : String)
    (h : findFuncOrMethodDeclM ld (ld.posOf pos).filename pos = some pos) :
    addFunctionLocked ld st path pos fqn impl =
      { functions := assocInsert st.functions fqn
          { path := path, decl := pos, position := ld.posOf pos,
            implementsL :=
              if impl.length > 0 then
                (match assocFind st.functions fqn with
                 | none => []
                 | some desc => desc.implementsL) ++ [impl]
              else [] },
        dirty := dirtyOr st.dirty (ld.posOf pos).filename hasFunctionBit } := by
  unfold addFunctionLocked
  simp only [h]

/-- The invariant of the `functions` collection: every stored descriptor's
declaration is an actual top-level `FuncDecl` of its file. -/
def declValid (ld : LoaderM) (st : TStateM) : Prop :=
  ∀ kv ∈ st.functions,
    findFuncOrMethodDeclM ld (kv.2 : FuncDescM).position.filename kv.2.decl = some kv.2.decl

theorem addFunctionLocked_preserves_declValid (ld : LoaderM) (st : TStateM)
    (path : String) (pos : Nat) (fqn impl : String) (hvalid : declValid ld st) :
    declValid ld (addFunctionLocked ld st path pos fqn impl) := by
  cases h : findFuncOrMethodDeclM ld (ld.posOf pos).filename pos with
  | none =>
    rw [addFunctionLocked_no_decl ld st path pos fqn impl h]
    exact hvalid
  | some dp =>
    have hdp := findFuncOrMethodDeclM_pos ld _ _ _ h
    rw [hdp] at h
    rw [addFunctionLocked_found ld st path pos fqn impl h]
    intro kv hkv
    rcases mem_assocInsert _ _ _ _ hkv with hkv' | hkv'
    · subst hkv'
      simpa using h
    · exact hvalid kv hkv'

theorem walkFunctionsM_mem (fns : List (String × FuncDescM)) (e : SortEntry FuncDescM)
    (h : e ∈ walkFunctionsM fns) : (e.name, e.payload) ∈ fns := by
  unfold walkFunctionsM at h
  have h' := (sorterM_perm _).mem_iff.mp h
  obtain ⟨kv, hkv, hmap⟩ := List.mem_map.mp h'
  rw [← hmap]
  exact hkv

/-- C10: every function or method descriptor stored in the engine carries
a located top-level declaration, and the functions walk only yields stored
descriptors; a matched exported method without a top-level declaration in
its source file (such as a method of an interface-typed struct field) is
silently skipped: the state is unchanged, nothing is added, and it never
appears in a walk.  The concrete conjuncts evaluate the scan of the
`impl` package, whose `WithInterfaceField.B` methods have no top-level
declaration. -/
theorem C10_descriptors_carry_declarations
    (ld : LoaderM) (st : TStateM) (path : String) (pos : Nat) (fqn impl : String)
    (hnone : findFuncOrMethodDeclM ld (ld.posOf pos).filename pos = none)
    (hvalid : declValid ld st) :
    (addFunctionLocked ld st path pos fqn impl = st)
    ∧ (∀ (path' : String) (pos' : Nat) (fqn' impl' : String),
        declValid ld (addFunctionLocked ld st path' pos' fqn' impl'))
    ∧ (∀ (fns : List (String × FuncDescM)) (e : SortEntry FuncDescM),
        e ∈ walkFunctionsM fns → (e.name, e.payload) ∈ fns)
    ∧ assocFind implScanResult.functions "(impl.WithInterfaceField.B).M1" = none
    ∧ assocFind implScanResult.functions "(impl.WithInterfaceField.B).M2" = none
    ∧ (∀ e ∈ walkFunctionsM implScanResult.functions,
        e.name ≠ "(impl.WithInterfaceField.B).M1" ∧
        e.name ≠ "(impl.WithInterfaceField.B).M2") := by
  refine ⟨addFunctionLocked_no_decl ld st path pos fqn impl hnone,
    fun path' pos' fqn' impl' =>
      addFunctionLocked_preserves_declValid ld st path' pos' fqn' impl' hvalid,
    walkFunctionsM_mem, by decide, by decide, by decide⟩

/-- Witness for C10: the `WithInterfaceField.B` abstract method `M1` of
the `impl` package, which has no top-level declaration. -/
theorem C10_descriptors_carry_declarations_witness :
    (addFunctionLocked implLoader emptyTState "impl" 43
        "(impl.WithInterfaceField.B).M1" "data.Ifc1" = emptyTState)
    ∧ (∀ (path' : String) (pos' : Nat) (fqn' impl' : String),
        declValid implLoader (addFunctionLocked implLoader emptyTState path' pos' fqn' impl'))
    ∧ (∀ (fns : List (String × FuncDescM)) (e : SortEntry FuncDescM),
        e ∈ walkFunctionsM fns → (e.name, e.payload) ∈ fns)
    ∧ assocFind implScanResult.functions "(impl.WithInterfaceField.B).M1" = none
    ∧ assocFind implScanResult.functions "(impl.WithInterfaceField.B).M2" = none
    ∧ (∀ e ∈ walkFunctionsM implScanResult.functions,
        e.name ≠ "(impl.WithInterfaceField.B).M1" ∧
        e.name ≠ "(impl.WithInterfaceField.B).M2") :=
  C10_descriptors_carry_declarations implLoader emptyTState "impl" 43
    "(impl.WithInterfaceField.B).M1" "data.Ifc1" (by decide)
    (fun kv hkv => absurd hkv (List.not_mem_nil kv))

/-! ## C3: ordering and determinism of the walks

The walks snapshot Go maps, whose iteration order is unspecified and
varies between runs; the model therefore takes the iteration order as an
explicit input.  Sorting is always by `(filename, offset)`; two records
with the *same* position key (possible for comment matches: one comment
group matched by two patterns) keep their iteration order, so two runs
over the same completed session can disagree. -/

def cmtTodo : CommentDescM :=
  { re := "TODO", filename := "f.go", position := { filename := "f.go", offset := 10 } }
def cmtFixme : CommentDescM :=
  { re := "FIXME", filename := "f.go", position := { filename := "f.go", offset := 10 } }

/-- The `comments` map of one completed session, in the iteration order of
one run... -/
def commentsRun1 : List (String × List CommentDescM) :=
  [("TODO", [cmtTodo]), ("FIXME", [cmtFixme])]

/-- ...and in the iteration order of another run over the same map. -/
def commentsRun2 : List (String × List CommentDescM) :=
  [("FIXME", [cmtFixme]), ("TODO", [cmtTodo])]

/-- Counterexample to C3 as stated: the comments walk of one completed
session (two patterns matching the same comment group, hence two entries
with identical positions) yields different sequences for two iteration
orders of the same `comments` map, so running the same walk twice on the
same completed, unmodified session need not yield the identical
sequence. -/
theorem C3_walk_determinism_counterexample :
    commentsRun1.Perm commentsRun2
    ∧ walkCommentsM commentsRun1 ≠ walkCommentsM commentsRun2 := by
  constructor
  · exact List.Perm.swap _ _ _
  · decide

/-- C3 amended: every ordered walk yields a `(filename, offset)`
non-decreasing sequence, and a walk whose entries carry pairwise-distinct
position keys (always the case for the contracts and functions walks) is
deterministic: any two iteration orders of the same collection yield the
identical sequence.  The comments walk is deterministic under the same
distinct-keys proviso. -/
theorem C3_walk_order_and_determinism :
    (∀ fns : List (String × FuncDescM), List.Sorted entryLE (walkFunctionsM fns))
    ∧ (∀ ifcs : List (String × IfcDescM), List.Sorted entryLE (walkInterfacesM ifcs))
    ∧ (∀ cs : List (String × List CommentDescM), List.Sorted entryLE (walkCommentsM cs))
    ∧ (∀ fns₁ fns₂ : List (String × FuncDescM), fns₁.Perm fns₂ →
        (fns₁.map (fun kv => kv.2.position)).Nodup →
        walkFunctionsM fns₁ = walkFunctionsM fns₂)
    ∧ (∀ ifcs₁ ifcs₂ : List (String × IfcDescM), ifcs₁.Perm ifcs₂ →
        (ifcs₁.map (fun kv => kv.2.position)).Nodup →
        walkInterfacesM ifcs₁ = walkInterfacesM ifcs₂)
    ∧ (∀ cs₁ cs₂ : List (String × List CommentDescM),
        (cs₁.flatMap (·.2)).Perm (cs₂.flatMap (·.2)) →
        ((cs₁.flatMap (·.2)).map (fun c => c.position)).Nodup →
        walkCommentsM cs₁ = walkCommentsM cs₂) := by
  refine ⟨fun fns => sorterM_sorted _, fun ifcs => sorterM_sorted _,
    fun cs => sorterM_sorted _, ?_, ?_, ?_⟩
  · intro fns₁ fns₂ hperm hkeys
    apply sorterM_deterministic
    · exact hperm.map _
    · rw [List.map_map]
      exact hkeys
  · intro ifcs₁ ifcs₂ hperm hkeys
    apply sorterM_deterministic
    · exact hperm.map _
    · rw [List.map_map]
      exact hkeys
  · intro cs₁ cs₂ hperm hkeys
    apply sorterM_deterministic
    · exact hperm.map _
    · rw [List.map_map]
      exact hkeys

/-- Witness for C3 amended: the functions walk of the `impl` scan is
sorted, and its determinism hypothesis holds for a concrete pair of
iteration orders. -/
theorem C3_walk_order_and_determinism_witness :
    List.Sorted entryLE (walkFunctionsM implScanResult.functions)
    ∧ walkFunctionsM (implScanResult.functions.reverse) =
        walkFunctionsM implScanResult.functions := by
  refine ⟨C3_walk_order_and_determinism.1 _, ?_⟩
  exact C3_walk_order_and_determinism.2.2.2.1 _ _
    (List.reverse_perm _) (by decide)

/-! ## C4: the spec parser (`parseSpecAndRegexp`)

`strings.LastIndex(typ, "/")` / `strings.Index(tail, ".")` and the
subsequent slicing are modelled by `breakLast` / `breakFirst`, which
return the text before and after the located separator.  `path.Join` is
modelled on already-clean inputs (no empty, `"."` or `".."` segments and
no redundant slashes), which covers every module-path spec at issue. -/

def breakLast (c : Char) : List Char → Option (List Char × List Char)
  | [] => none
  | a :: as =>
    match breakLast c as with
    | some pq => some (a :: pq.1, pq.2)
    | none => if a == c then some ([], as) else none

def breakFirst (c : Char) : List Char → Option (List Char × List Char)
  | [] => none
  | a :: as =>
    if a == c then some ([], as)
    else (breakFirst c as).map (fun pq => (a :: pq.1, pq.2))

def pathJoin (dir tail : List Char) : List Char :=
  if dir.isEmpty then tail
  else if tail.isEmpty then dir
  else dir ++ '/' :: tail

/-- Model of `parseSpecAndRegexp` of `locate/specs.go`: split at the last `/`; no
slash means the whole string splits at the first `.` (or is a bare
package path); otherwise the tail after the last slash splits at its
first `.`, with `.*` as the default pattern. -/
def parseSpecAndRegexp (typ : String) : String × String :=
  match breakLast '/' typ.data with
  | none =>
    match breakFirst '.' typ.data with
    | some pq => (String.mk pq.1, String.mk pq.2)
    | none => (typ, ".*")
  | some dt =>
    match breakFirst '.' dt.2 with
    | none => (String.mk (pathJoin dt.1 dt.2), ".*")
    | some pq => (String.mk (pathJoin dt.1 pq.1), String.mk pq.2)

/-- The claimed behaviour, following the spec's words: split the tail on
its *last* `.` instead. -/
def parseSpecLastDot (typ : String) : String × String :=
  match breakLast '/' typ.data with
  | none =>
    match breakLast '.' typ.data with
    | some pq => (String.mk pq.1, String.mk pq.2)
    | none => (typ, ".*")
  | some dt =>
    match breakLast '.' dt.2 with
    | none => (String.mk (pathJoin dt.1 dt.2), ".*")
    | some pq => (String.mk (pathJoin dt.1 pq.1), String.mk pq.2)

theorem breakLast_eq_none (c : Char) : ∀ l : List Char, c ∉ l → breakLast c l = none := by
  intro l
  induction l with
  | nil => intro _; rfl
  | cons a as ih =>
    intro h
    have ha : a ≠ c := fun hac => h (hac ▸ List.mem_cons_self _ _)
    have has : c ∉ as := fun hc => h (List.mem_cons_of_mem _ hc)
    simp only [breakLast, ih has]
    simp [ha]

theorem breakFirst_eq_none (c : Char) : ∀ l : List Char, c ∉ l → breakFirst c l = none := by
  intro l
  induction l with
  | nil => intro _; rfl
  | cons a as ih =>
    intro h
    have ha : a ≠ c := fun hac => h (hac ▸ List.mem_cons_self _ _)
    have has : c ∉ as := fun hc => h (List.mem_cons_of_mem _ hc)
    simp [breakFirst, ha, ih has]

theorem breakLast_split (c : Char) (pre post : List Char) (h : c ∉ post) :
    breakLast c (pre ++ c :: post) = some (pre, post) := by
  induction pre with
  | nil =>
    simp only [List.nil_append, breakLast, breakLast_eq_none c post h]
    simp
  | cons a pres ih =>
    simp only [List.cons_append, breakLast, List.append_eq, ih]

theorem breakFirst_split (c : Char) (pre post : List Char) (h : c ∉ pre) :
    breakFirst c (pre ++ c :: post) = some (pre, post) := by
  induction pre with
  | nil => simp [breakFirst]
  | cons a pres ih =>
    have ha : a ≠ c := fun hac => h (hac ▸ List.mem_cons_self _ _)
    have hpres : c ∉ pres := fun hc => h (List.mem_cons_of_mem _ hc)
    simp [breakFirst, ha, ih hpres]

/-- Counterexample to C4 as stated: on `"a/b.c.d"` the parser yields
module path `"a/b"` and pattern `"c.d"` — it splits the tail on its
*first* `.` — whereas splitting on the last `.` would yield
`("a/b.c", "d")`. -/
theorem C4_first_dot_counterexample :
    parseSpecAndRegexp "a/b.c.d" = ("a/b", "c.d")
    ∧ parseSpecLastDot "a/b.c.d" = ("a/b.c", "d")
    ∧ parseSpecAndRegexp "a/b.c.d" ≠ parseSpecLastDot "a/b.c.d" := by
  refine ⟨by decide, by decide, by decide⟩

/-- C4 amended: the spec parser splits on the last path separator to find
the module-path boundary, then splits the remaining tail on its *first*
`.`; if the tail contains no `.`, the name pattern defaults to the
match-everything pattern `.*`. -/
theorem C4_parser_splits_last_slash_first_dot
    (dir tail pre post : List Char)
    (hslash : '/' ∉ tail) :
    (tail = pre ++ '.' :: post → '.' ∉ pre →
      parseSpecAndRegexp (String.mk (dir ++ '/' :: tail)) =
        (String.mk (pathJoin dir pre), String.mk post))
    ∧ ('.' ∉ tail →
      parseSpecAndRegexp (String.mk (dir ++ '/' :: tail)) =
        (String.mk (pathJoin dir tail), ".*")) := by
  constructor
  · intro htail hdot
    unfold parseSpecAndRegexp
    simp only [breakLast_split '/' dir tail hslash]
    subst htail
    simp only [breakFirst_split '.' pre post hdot]
  · intro hdot
    unfold parseSpecAndRegexp
    simp only [breakLast_split '/' dir tail hslash]
    simp only [breakFirst_eq_none '.' tail hdot]

/-- Witness for C4 amended at `"a/b.c.d"` and `"a/b"`. -/
theorem C4_parser_splits_last_slash_first_dot_witness :
    (parseSpecAndRegexp "a/b.c.d" = ("a/b", "c.d"))
    ∧ (parseSpecAndRegexp "a/b" = ("a/b", ".*")) := by
  constructor
  · have h := (C4_parser_splits_last_slash_first_dot
      ['a'] ['b', '.', 'c', '.', 'd'] ['b'] ['c', '.', 'd'] (by decide)).1
      (by decide) (by decide)
    exact h
  · have h := (C4_parser_splits_last_slash_first_dot
      ['a'] ['b'] [] [] (by decide)).2 (by decide)
    exact h

/-! ## The regular-expression fragment used by the engine

The engine compiles user-supplied name patterns and internally
constructed `name + "$"` patterns with Go's `regexp.Compile`, and matches
with `MatchString` (unanchored search).  The model covers the fragment
the repository exercises: the universal pattern `.*`, metacharacter-free
literals (matched by substring containment), end-anchored
metacharacter-free literals `lit$` (matched by suffix), and
compile-failure by unbalanced parentheses (the repository's malformed
pattern scenario).  Other metacharacter patterns are outside the claims
and are conservatively treated as literals. -/

inductive RePat where
  | matchAll
  | litSuffix (lit : String)
  | lit (s : String)
deriving DecidableEq

def chContainsSub (needle : List Char) : List Char → Bool
  | [] => needle.isEmpty
  | h :: t => needle.isPrefixOf (h :: t) || chContainsSub needle t

/-- Model of `regexp.MatchString` on the modelled fragment. -/
def matchRe : RePat → String → Bool
  | RePat.matchAll, _ => true
  | RePat.litSuffix l, s => l.data.isSuffixOf s.data
  | RePat.lit l, s => chContainsSub l.data s.data

def isMetaChar (c : Char) : Bool :=
  c == '(' || c == ')' || c == '|' || c == '*' || c == '+' || c == '?' ||
  c == '[' || c == ']' || c == '^' || c == '$' || c == '.' || c == '\\'

def parenBalance : List Char → Int → Bool
  | [], acc => acc == 0
  | c :: rest, acc =>
    if c == '(' then parenBalance rest (acc + 1)
    else if c == ')' then decide (0 < acc) && parenBalance rest (acc - 1)
    else parenBalance rest acc

/-- Model of `regexp.Compile` on the modelled fragment. -/
def compileRe (expr : String) : Option RePat :=
  if parenBalance expr.data 0 = false then none
  else if expr == ".*" then some RePat.matchAll
  else if expr.data.getLast? == some '$'
      && expr.data.dropLast.all (fun c => !isMetaChar c) then
    some (RePat.litSuffix (String.mk expr.data.dropLast))
  else some (RePat.lit expr)

/-- The pattern the resolver builds for a foreign embedded contract:
`regexp.Compile(obj.Name() + "$")`, whose error is discarded by the
source (it cannot occur for identifiers). -/
def anchorPattern (name : String) : RePat :=
  match compileRe (name ++ "$") with
  | some re => re
  | none => RePat.lit (name ++ "$")

example : compileRe "(" = none := by decide
example : compileRe ".*" = some RePat.matchAll := by decide
example : anchorPattern "Pkg" = RePat.litSuffix "Pkg" := by decide
example : matchRe (RePat.litSuffix "Pkg") "SuperPkg" = true := by decide
example : matchRe (RePat.litSuffix "Pkg") "PkgX" = false := by decide

/-! ## The contract resolver (`findInterfacesInPackage`)

`types.Info.Defs` entries relevant to the interface scan: the identifier
name (exportedness is `k.IsExported()`, i.e. a property of the name),
its position, whether the object is a `*types.TypeName`, and the result
of `isInterfaceType(pkg.PkgPath, obj.Type())` (some interface exactly
when the type is a named interface declared in this package). -/

structure TypeDef where
  name : String
  pos : Nat
  isTypeName : Bool
  ifc : Option GoIfc
deriving DecidableEq

structure PkgM where
  path : String
  defs : List TypeDef
deriving DecidableEq

structure WorldM where
  pkgs : List PkgM
deriving DecidableEq

/-- Model of `loader.lookupPackage`. -/
def lookupPkg (w : WorldM) (p : String) : Option PkgM :=
  w.pkgs.find? (fun pk => pk.path == p)

inductive LocErr where
  | lookupFailed (path : String)
  | noMatch (path : String)
  | fuelOut
  | invalidSpec (expr : String)
  | noPackageName (spec : String)
  | loadFailed (paths : List String)
deriving DecidableEq

/-- The filter of the outer loop of `findInterfacesInPackage`: non-nil
exported object whose name matches the pattern, a `*types.TypeName`,
whose type is a named interface of this package. -/
def ifcMatched (re : RePat) (d : TypeDef) : Bool :=
  isExportedName d.name && matchRe re d.name && d.isTypeName && d.ifc.isSome

/-- The names of the locally declared embedded interfaces of a matched
interface (the `names` set of the source). -/
def localEmbNames (p : String) (i : GoIfc) : List String :=
  i.embeddeds.filterMap (fun e => if e.isNamed && e.pkgPath == p then some e.name else none)

/-- The second `Defs` scan of the source: every definition whose name is
a locally embedded name and whose type is a named interface of this
package is registered — with no exportedness condition. -/
def localEmbRegs (p : String) (alldefs : List TypeDef) (i : GoIfc) : List (String × String) :=
  alldefs.filterMap (fun ed =>
    if (localEmbNames p i).contains ed.name && ed.ifc.isSome then some (p, ed.name) else none)

/-- The foreign-embedded loop: each named embedded type declared in a
different package is resolved as if directly requested with the
`name + "$"` pattern; errors propagate. -/
def processForeign (find : String → RePat → Except LocErr (List (String × String)))
    (p : String) : List EmbRef → Except LocErr (List (String × String))
  | [] => Except.ok []
  | e :: rest =>
    if e.isNamed && e.pkgPath != p then
      match find e.pkgPath (anchorPattern e.name) with
      | Except.error err => Except.error err
      | Except.ok regs =>
        match processForeign find p rest with
        | Except.error err => Except.error err
        | Except.ok rs => Except.ok (regs ++ rs)
    else processForeign find p rest

/-- The embedded-interface step for one matched interface: nothing when
there are no embeddings; otherwise the foreign recursion followed by the
local-registration scan. -/
def embedRegs (find : String → RePat → Except LocErr (List (String × String)))
    (p : String) (alldefs : List TypeDef) (i : GoIfc) :
    Except LocErr (List (String × String)) :=
  if i.embeddeds.isEmpty then Except.ok []
  else
    match processForeign find p i.embeddeds with
    | Except.error err => Except.error err
    | Except.ok fr => Except.ok (fr ++ localEmbRegs p alldefs i)

/-- The outer loop over `Defs`: for each matched interface, process its
embedded interfaces (foreign recursion plus local registration), then
register the interface itself and count it. -/
def processDefs (find : String → RePat → Except LocErr (List (String × String)))
    (p : String) (re : RePat) (alldefs : List TypeDef) :
    List TypeDef → Except LocErr (List (String × String) × Nat)
  | [] => Except.ok ([], 0)
  | d :: rest =>
    if ifcMatched re d then
      match d.ifc with
      | none => processDefs find p re alldefs rest
      | some i =>
        match embedRegs find p alldefs i with
        | Except.error err => Except.error err
        | Except.ok er =>
          match processDefs find p re alldefs rest with
          | Except.error err => Except.error err
          | Except.ok rn => Except.ok (er ++ (p, d.name) :: rn.1, rn.2 + 1)
    else processDefs find p re alldefs rest

/-- Model of `findInterfacesInPackage`: look up the package, scan its definitions,
and fail with the no-match error when nothing matched and the engine is
not configured to ignore empty matches.  Recursion into foreign packages
is bounded by fuel (Go's import graph is acyclic; exhausted fuel is a
distinguished error). -/
def findIfcsGo : Nat → WorldM → Bool → String → RePat →
    Except LocErr (List (String × String))
  | 0, _, _, _, _ => Except.error LocErr.fuelOut
  | fuel + 1, w, ignoreMissing, p, re =>
    match lookupPkg w p with
    | none => Except.error (LocErr.lookupFailed p)
    | some pkg =>
      match processDefs (findIfcsGo fuel w ignoreMissing) p re pkg.defs pkg.defs with
      | Except.error e => Except.error e
      | Except.ok rn =>
        if !ignoreMissing && rn.2 == 0 then Except.error (LocErr.noMatch p)
        else Except.ok rn.1

deriving instance DecidableEq for Except

/-! ## Concrete scenario: the `embedded` test package

Mirrors `locate/testdata/data/embedded/embedded.go` (IfcE1, IfcE2, the
non-exported ifcE3, IfcE embedding all three plus the foreign `pkg.Pkg`,
and IfcEIgnore) and `.../embedded/pkg/interface.go` (Pkg). -/

def sigE1 : MethodSig := { name := "E1", params := [], results := [] }
def sigE2 : MethodSig := { name := "E2", params := [], results := [] }
def sigE3 : MethodSig := { name := "E3", params := [], results := [] }
def sigPk : MethodSig := { name := "Pk", params := [], results := [] }
def sigM1int : MethodSig := { name := "M1", params := [], results := ["int"] }

def ifcE1Ty : GoIfc := { methods := [sigE1], embeddeds := [] }
def ifcE2Ty : GoIfc := { methods := [sigE2], embeddeds := [] }
def ifcE3Ty : GoIfc := { methods := [sigE3], embeddeds := [] }
def pkgPkTy : GoIfc := { methods := [sigPk], embeddeds := [] }

def ifcETy : GoIfc :=
  { methods := [sigE1, sigE2, sigE3, sigPk, sigM1int],
    embeddeds :=
      [{ isNamed := true, name := "IfcE1", pkgPath := "embedded" },
       { isNamed := true, name := "IfcE2", pkgPath := "embedded" },
       { isNamed := true, name := "ifcE3", pkgPath := "embedded" },
       { isNamed := true, name := "Pkg", pkgPath := "embedded/pkg" }] }

def embeddedPkg : PkgM :=
  { path := "embedded",
    defs :=
      [{ name := "IfcE1", pos := 5, isTypeName := true, ifc := some ifcE1Ty },
       { name := "IfcE2", pos := 9, isTypeName := true, ifc := some ifcE2Ty },
       { name := "ifcE3", pos := 13, isTypeName := true, ifc := some ifcE3Ty },
       { name := "IfcE", pos := 18, isTypeName := true, ifc := some ifcETy },
       { name := "IfcEIgnore", pos := 26, isTypeName := true, ifc := some ifcETy },
       { name := "E1", pos := 6, isTypeName := false, ifc := none }] }

def pkgPkg : PkgM :=
  { path := "embedded/pkg",
    defs := [{ name := "Pkg", pos := 3, isTypeName := true, ifc := some pkgPkTy }] }

def embWorld : WorldM := { pkgs := [embeddedPkg, pkgPkg] }

example : findIfcsGo 2 embWorld false "embedded" (RePat.litSuffix "IfcE") =
    Except.ok [("embedded/pkg", "Pkg"), ("embedded", "IfcE1"), ("embedded", "IfcE2"),
      ("embedded", "ifcE3"), ("embedded", "IfcE")] := by decide

/-! ## Membership lemmas for the resolver's registrations -/

theorem localEmbRegs_of_empty (p : String) (alldefs : List TypeDef) (i : GoIfc)
    (h : i.embeddeds = []) : localEmbRegs p alldefs i = [] := by
  unfold localEmbRegs localEmbNames
  rw [h]
  simp [List.filterMap]

theorem mem_localEmbRegs (p : String) (alldefs : List TypeDef) (i : GoIfc)
    (e : EmbRef) (ed : TypeDef) (he : e ∈ i.embeddeds) (hn : e.isNamed = true)
    (hp : e.pkgPath = p) (hed : ed ∈ alldefs) (hname : ed.name = e.name)
    (hifc : ed.ifc.isSome = true) : (p, ed.name) ∈ localEmbRegs p alldefs i := by
  have hmemname : e.name ∈ localEmbNames p i := by
    unfold localEmbNames
    refine List.mem_filterMap.mpr ⟨e, he, ?_⟩
    simp [hn, hp]
  have hcontains : (localEmbNames p i).contains ed.name = true := by
    rw [hname]
    exact List.elem_eq_true_of_mem hmemname
  unfold localEmbRegs
  refine List.mem_filterMap.mpr ⟨ed, hed, ?_⟩
  rw [hcontains]
  simp [hifc]

theorem processForeign_ok_mem
    (find : String → RePat → Except LocErr (List (String × String))) (p : String) :
    ∀ (el : List EmbRef) (fr : List (String × String)),
      processForeign find p el = Except.ok fr →
      ∀ e ∈ el, e.isNamed = true → e.pkgPath ≠ p →
        ∃ sub, find e.pkgPath (anchorPattern e.name) = Except.ok sub ∧ sub ⊆ fr := by
  intro el
  induction el with
  | nil => intro fr _ e he; exact absurd he (List.not_mem_nil e)
  | cons e₀ rest ih =>
    intro fr h e he hn hp
    simp only [processForeign] at h
    by_cases hcond : (e₀.isNamed && e₀.pkgPath != p) = true
    · rw [if_pos hcond] at h
      cases hfind : find e₀.pkgPath (anchorPattern e₀.name) with
      | error err => rw [hfind] at h; exact Except.noConfusion h
      | ok regs =>
        rw [hfind] at h
        cases hrest : processForeign find p rest with
        | error err => rw [hrest] at h; exact Except.noConfusion h
        | ok rs =>
          rw [hrest] at h
          have hfr : regs ++ rs = fr := by
            injection h
          rcases List.mem_cons.mp he with he' | he'
          · subst he'
            exact ⟨regs, hfind, fun x hx => hfr ▸ List.mem_append_left _ hx⟩
          · obtain ⟨sub, hs, hsub⟩ := ih rs hrest e he' hn hp
            exact ⟨sub, hs, fun x hx => hfr ▸ List.mem_append_right _ (hsub hx)⟩
    · rw [if_neg hcond] at h
      rcases List.mem_cons.mp he with he' | he'
      · exfalso
        apply hcond
        rw [← he']
        simp [hn, bne_iff_ne, hp]
      · exact ih fr h e he' hn hp

theorem embedRegs_ok_mem
    (find : String → RePat → Except LocErr (List (String × String)))
    (p : String) (alldefs : List TypeDef) (i : GoIfc) (er : List (String × String))
    (h : embedRegs find p alldefs i = Except.ok er) :
    (∀ x ∈ localEmbRegs p alldefs i, x ∈ er)
    ∧ (∀ e ∈ i.embeddeds, e.isNamed = true → e.pkgPath ≠ p →
        ∃ sub, find e.pkgPath (anchorPattern e.name) = Except.ok sub ∧ sub ⊆ er) := by
  unfold embedRegs at h
  by_cases hemp : i.embeddeds.isEmpty
  · rw [if_pos hemp] at h
    have hnil : i.embeddeds = [] := List.isEmpty_iff.mp hemp
    constructor
    · intro x hx
      rw [localEmbRegs_of_empty p alldefs i hnil] at hx
      exact absurd hx (List.not_mem_nil x)
    · intro e he
      rw [hnil] at he
      exact absurd he (List.not_mem_nil e)
  · rw [if_neg hemp] at h
    cases hfor : processForeign find p i.embeddeds with
    | error err => rw [hfor] at h; exact Except.noConfusion h
    | ok fr =>
      rw [hfor] at h
      have her : fr ++ localEmbRegs p alldefs i = er := by injection h
      constructor
      · intro x hx
        exact her ▸ List.mem_append_right _ hx
      · intro e he hn hp
        obtain ⟨sub, hs, hsub⟩ := processForeign_ok_mem find p i.embeddeds fr hfor e he hn hp
        exact ⟨sub, hs, fun x hx => her ▸ List.mem_append_left _ (hsub hx)⟩

theorem processDefs_ok_mem
    (find : String → RePat → Except LocErr (List (String × String)))
    (p : String) (re : RePat) (alldefs : List TypeDef) :
    ∀ (l : List TypeDef) (regs : List (String × String)) (n : Nat),
      processDefs find p re alldefs l = Except.ok (regs, n) →
      ∀ d ∈ l, ifcMatched re d = true → ∀ i, d.ifc = some i →
        ((p, d.name) ∈ regs
         ∧ (∀ x ∈ localEmbRegs p alldefs i, x ∈ regs)
         ∧ (∀ e ∈ i.embeddeds, e.isNamed = true → e.pkgPath ≠ p →
             ∃ sub, find e.pkgPath (anchorPattern e.name) = Except.ok sub ∧ sub ⊆ regs)) := by
  intro l
  induction l with
  | nil => intro regs n _ d hd; exact absurd hd (List.not_mem_nil d)
  | cons d₀ rest ih =>
    intro regs n h d hd hm i hi
    simp only [processDefs] at h
    by_cases hm₀ : ifcMatched re d₀
    · rw [if_pos hm₀] at h
      cases hifc₀ : d₀.ifc with
      | none =>
        simp only [hifc₀] at h
        rcases List.mem_cons.mp hd with hd' | hd'
        · exfalso
          rw [← hd'] at hifc₀
          rw [hifc₀] at hi
          exact Option.noConfusion hi
        · exact ih regs n h d hd' hm i hi
      | some i₀ =>
        simp only [hifc₀] at h
        cases hemb : embedRegs find p alldefs i₀ with
        | error err => rw [hemb] at h; exact Except.noConfusion h
        | ok er =>
          rw [hemb] at h
          cases hrest : processDefs find p re alldefs rest with
          | error err => rw [hrest] at h; exact Except.noConfusion h
          | ok rn =>
            rw [hrest] at h
            injection h with h'
            obtain ⟨hregs, _⟩ := Prod.mk.inj h' 
            rcases List.mem_cons.mp hd with hd' | hd'
            · have hii : i = i₀ := by
                rw [← hd'] at hifc₀
                rw [hifc₀] at hi
                exact (Option.some.inj hi).symm
              subst hii
              obtain ⟨hloc, hfor⟩ := embedRegs_ok_mem find p alldefs i er hemb
              refine ⟨?_, ?_, ?_⟩
              · rw [← hregs, ← hd']
                exact List.mem_append_right _ (List.mem_cons_self _ _)
              · intro x hx
                rw [← hregs]
                exact List.mem_append_left _ (hloc x hx)
              · intro e he hn hp
                obtain ⟨sub, hs, hsub⟩ := hfor e he hn hp
                exact ⟨sub, hs, fun x hx => hregs ▸ List.mem_append_left _ (hsub hx)⟩
            · obtain ⟨h1, h2, h3⟩ := ih rn.1 rn.2 (by rw [hrest]) d hd' hm i hi
              refine ⟨?_, ?_, ?_⟩
              · rw [← hregs]
                exact List.mem_append_right _ (List.mem_cons_of_mem _ h1)
              · intro x hx
                rw [← hregs]
                exact List.mem_append_right _ (List.mem_cons_of_mem _ (h2 x hx))
              · intro e he hn hp
                obtain ⟨sub, hs, hsub⟩ := h3 e he hn hp
                exact ⟨sub, hs, fun x hx =>
                  hregs ▸ List.mem_append_right _ (List.mem_cons_of_mem _ (hsub hx))⟩
    · rw [if_neg hm₀] at h
      rcases List.mem_cons.mp hd with hd' | hd'
      · exact absurd (hd' ▸ hm) hm₀
      · exact ih regs n h d hd' hm i hi

theorem findIfcsGo_ok_mem (fuel : Nat) (w : WorldM) (ig : Bool) (p : String)
    (re : RePat) (pkg : PkgM) (regs : List (String × String))
    (hlk : lookupPkg w p = some pkg)
    (hok : findIfcsGo (fuel + 1) w ig p re = Except.ok regs) :
    ∀ d ∈ pkg.defs, ifcMatched re d = true → ∀ i, d.ifc = some i →
      ((p, d.name) ∈ regs
       ∧ (∀ x ∈ localEmbRegs p pkg.defs i, x ∈ regs)
       ∧ (∀ e ∈ i.embeddeds, e.isNamed = true → e.pkgPath ≠ p →
           ∃ sub, findIfcsGo fuel w ig e.pkgPath (anchorPattern e.name) = Except.ok sub
             ∧ sub ⊆ regs)) := by
  intro d hd hm i hi
  unfold findIfcsGo at hok
  simp only [hlk] at hok
  cases hpd : processDefs (findIfcsGo fuel w ig) p re pkg.defs pkg.defs with
  | error err =>
    simp only [hpd] at hok
    exact Except.noConfusion hok
  | ok rn =>
    simp only [hpd] at hok
    by_cases hcond : (!ig && rn.2 == 0) = true
    · rw [if_pos hcond] at hok
      exact Except.noConfusion hok
    · rw [if_neg hcond] at hok
      have hregs : rn.1 = regs := by injection hok
      have := processDefs_ok_mem (findIfcsGo fuel w ig) p re pkg.defs pkg.defs rn.1 rn.2
        (by rw [hpd]) d hd hm i hi
      exact hregs ▸ this

/-- Counterexample to C2 as stated: resolving `IfcE` in the `embedded`
test package registers the *non-exported* locally embedded interface
`ifcE3` as an independently addressable contract of the result set (as
the repository's own `TestEmbeddedInterfaces` expects). -/
theorem C2_nonexported_embedded_registered_counterexample :
    findIfcsGo 2 embWorld false "embedded" (RePat.litSuffix "IfcE") =
      Except.ok [("embedded/pkg", "Pkg"), ("embedded", "IfcE1"), ("embedded", "IfcE2"),
        ("embedded", "ifcE3"), ("embedded", "IfcE")]
    ∧ ("embedded", "ifcE3") ∈
        [("embedded/pkg", "Pkg"), ("embedded", "IfcE1"), ("embedded", "IfcE2"),
          ("embedded", "ifcE3"), ("embedded", "IfcE")]
    ∧ isExportedName "ifcE3" = false := by
  refine ⟨by decide, by decide, by decide⟩

/-- C2 amended: for every resolved contract with embedded contracts, each
embedded contract declared in the same module whose name resolves to an
interface type among the package's definitions is additionally registered
as an independently discoverable contract — *regardless of whether it is
exported*.  In particular the non-exported `ifcE3` is registered. -/
theorem C2_local_embedded_registered_regardless_of_export
    (fuel : Nat) (w : WorldM) (ig : Bool) (p : String) (re : RePat) (pkg : PkgM)
    (regs : List (String × String)) (d : TypeDef) (i : GoIfc) (e : EmbRef) (ed : TypeDef)
    (hlk : lookupPkg w p = some pkg)
    (hok : findIfcsGo (fuel + 1) w ig p re = Except.ok regs)
    (hd : d ∈ pkg.defs) (hm : ifcMatched re d = true) (hi : d.ifc = some i)
    (he : e ∈ i.embeddeds) (hn : e.isNamed = true) (hp : e.pkgPath = p)
    (hed : ed ∈ pkg.defs) (hname : ed.name = e.name) (hifc : ed.ifc.isSome = true) :
    (p, ed.name) ∈ regs := by
  have ⟨_, hloc, _⟩ := findIfcsGo_ok_mem fuel w ig p re pkg regs hlk hok d hd hm i hi
  exact hloc _ (mem_localEmbRegs p pkg.defs i e ed he hn hp hed hname hifc)

/-- Witness for C2 amended: the non-exported `ifcE3`, locally embedded by
the matched `IfcE`, is registered in the result set. -/
theorem C2_local_embedded_registered_regardless_of_export_witness :
    ("embedded", "ifcE3") ∈
      [(("embedded/pkg" : String), ("Pkg" : String)), ("embedded", "IfcE1"),
       ("embedded", "IfcE2"), ("embedded", "ifcE3"), ("embedded", "IfcE")] :=
  C2_local_embedded_registered_regardless_of_export 1 embWorld false "embedded"
    (RePat.litSuffix "IfcE") embeddedPkg
    [("embedded/pkg", "Pkg"), ("embedded", "IfcE1"), ("embedded", "IfcE2"),
     ("embedded", "ifcE3"), ("embedded", "IfcE")]
    { name := "IfcE", pos := 18, isTypeName := true, ifc := some ifcETy } ifcETy
    { isNamed := true, name := "ifcE3", pkgPath := "embedded" }
    { name := "ifcE3", pos := 13, isTypeName := true, ifc := some ifcE3Ty }
    (by decide) (by decide) (by decide) (by decide) (by decide) (by decide)
    (by decide) (by decide) (by decide) (by decide) (by decide)

/-! ## C7: cross-module embedded contracts -/

theorem ifcMatched_isSome (re : RePat) (d : TypeDef) (h : ifcMatched re d = true) :
    ∃ i, d.ifc = some i := by
  unfold ifcMatched at h
  simp only [Bool.and_eq_true] at h
  exact Option.isSome_iff_exists.mp h.2

/-- A world containing a contract in module `m` that embeds `ext.Pkg`,
where the foreign module `ext` also declares `SuperPkg`, whose name ends
with `Pkg`. -/
def mainPkgC7 : PkgM :=
  { path := "m",
    defs := [{ name := "IfcM", pos := 1, isTypeName := true,
               ifc := some { methods := [sigPk],
                             embeddeds := [{ isNamed := true, name := "Pkg",
                                             pkgPath := "ext" }] } }] }

def extPkgC7 : PkgM :=
  { path := "ext",
    defs := [{ name := "Pkg", pos := 1, isTypeName := true, ifc := some pkgPkTy },
             { name := "SuperPkg", pos := 5, isTypeName := true,
               ifc := some { methods := [sigPk], embeddeds := [] } }] }

def c7World : WorldM := { pkgs := [mainPkgC7, extPkgC7] }

/-- Counterexample to C7 as stated: the pattern built for the foreign
embedded contract `ext.Pkg` is `"Pkg$"`, which `MatchString` matches
against any name *ending* in `Pkg`; resolving `m.IfcM` therefore also
resolves and registers `ext.SuperPkg`, an exported interface of the
foreign module with a different name. -/
theorem C7_suffix_match_counterexample :
    findIfcsGo 2 c7World false "m" (RePat.litSuffix "IfcM") =
      Except.ok [("ext", "Pkg"), ("ext", "SuperPkg"), ("m", "IfcM")]
    ∧ ("ext", "SuperPkg") ∈ [(("ext" : String), ("Pkg" : String)),
        ("ext", "SuperPkg"), ("m", "IfcM")]
    ∧ "SuperPkg" ≠ "Pkg" := by
  refine ⟨by decide, by decide, by decide⟩

/-- C7 amended: a contract embedding a contract of a different module is
resolved by recursing exactly as if the caller had issued a resolve
request against the foreign module with the end-anchored pattern
`"<name>$"` — a *suffix* match, not an exact-name match: on success the
recursion's registrations are part of the result set, and every exported
interface of the foreign module whose name merely ends with the embedded
name (in particular the exactly-named one) is resolved and registered. -/
theorem C7_foreign_embedded_resolved_by_suffix
    (fuel : Nat) (w : WorldM) (ig : Bool) (p : String) (re : RePat) (pkg : PkgM)
    (regs : List (String × String)) (d : TypeDef) (i : GoIfc) (e : EmbRef)
    (pkg' : PkgM) (ed : TypeDef)
    (hlk : lookupPkg w p = some pkg)
    (hok : findIfcsGo (fuel + 1) w ig p re = Except.ok regs)
    (hd : d ∈ pkg.defs) (hm : ifcMatched re d = true) (hi : d.ifc = some i)
    (he : e ∈ i.embeddeds) (hn : e.isNamed = true) (hp : e.pkgPath ≠ p)
    (hanch : anchorPattern e.name = RePat.litSuffix e.name)
    (hlk' : lookupPkg w e.pkgPath = some pkg')
    (hed : ed ∈ pkg'.defs) (hm' : ifcMatched (RePat.litSuffix e.name) ed = true) :
    (∃ sub, findIfcsGo fuel w ig e.pkgPath (RePat.litSuffix e.name) = Except.ok sub
      ∧ sub ⊆ regs)
    ∧ (e.pkgPath, ed.name) ∈ regs := by
  have ⟨_, _, hfor⟩ := findIfcsGo_ok_mem fuel w ig p re pkg regs hlk hok d hd hm i hi
  obtain ⟨sub, hs, hsub⟩ := hfor e he hn hp
  rw [hanch] at hs
  refine ⟨⟨sub, hs, hsub⟩, ?_⟩
  cases fuel with
  | zero => exact absurd hs (by simp [findIfcsGo])
  | succ k =>
    obtain ⟨i', hi'⟩ := ifcMatched_isSome _ _ hm'
    have ⟨hself, _, _⟩ := findIfcsGo_ok_mem k w ig e.pkgPath (RePat.litSuffix e.name)
      pkg' sub hlk' hs ed hed hm' i' hi'
    exact hsub hself

/-- Witness for C7 amended at the concrete world: the recursion for
`ext.Pkg` succeeds and `ext.SuperPkg` (suffix match) is registered. -/
theorem C7_foreign_embedded_resolved_by_suffix_witness :
    (∃ sub, findIfcsGo 1 c7World false "ext" (RePat.litSuffix "Pkg") = Except.ok sub
      ∧ sub ⊆ [(("ext" : String), ("Pkg" : String)), ("ext", "SuperPkg"), ("m", "IfcM")])
    ∧ ("ext", "SuperPkg") ∈ [(("ext" : String), ("Pkg" : String)),
        ("ext", "SuperPkg"), ("m", "IfcM")] :=
  C7_foreign_embedded_resolved_by_suffix 1 c7World false "m" (RePat.litSuffix "IfcM")
    mainPkgC7 [("ext", "Pkg"), ("ext", "SuperPkg"), ("m", "IfcM")]
    { name := "IfcM", pos := 1, isTypeName := true,
      ifc := some { methods := [sigPk],
                    embeddeds := [{ isNamed := true, name := "Pkg", pkgPath := "ext" }] } }
    { methods := [sigPk],
      embeddeds := [{ isNamed := true, name := "Pkg", pkgPath := "ext" }] }
    { isNamed := true, name := "Pkg", pkgPath := "ext" }
    extPkgC7
    { name := "SuperPkg", pos := 5, isTypeName := true,
      ifc := some { methods := [sigPk], embeddeds := [] } }
    (by decide) (by decide) (by decide) (by decide) (by decide) (by decide)
    (by decide) (by decide) (by decide) (by decide) (by decide) (by decide)

/-! ## C5: the no-match error -/

/-- The definitions of the directly targeted package that the scan counts:
exported interface declarations matching the pattern. -/
def matchedDefs (re : RePat) (defs : List TypeDef) : List TypeDef :=
  defs.filter (ifcMatched re)

theorem lookupPkg_props (w : WorldM) (p : String) (pk : PkgM)
    (h : lookupPkg w p = some pk) : pk ∈ w.pkgs ∧ pk.path = p := by
  unfold lookupPkg at h
  refine ⟨List.mem_of_find?_eq_some h, ?_⟩
  have hpred := List.find?_some h
  simpa using hpred

theorem processDefs_nomatch
    (find : String → RePat → Except LocErr (List (String × String)))
    (p : String) (re : RePat) (alldefs : List TypeDef) :
    ∀ l : List TypeDef, (∀ d ∈ l, ifcMatched re d = false) →
      processDefs find p re alldefs l = Except.ok ([], 0) := by
  intro l
  induction l with
  | nil => intro _; rfl
  | cons d rest ih =>
    intro h
    have hd : ifcMatched re d = false := h d (List.mem_cons_self _ _)
    simp only [processDefs, hd]
    exact ih (fun d' hd' => h d' (List.mem_cons_of_mem _ hd'))

theorem processDefs_count
    (find : String → RePat → Except LocErr (List (String × String)))
    (p : String) (re : RePat) (alldefs : List TypeDef) :
    ∀ (l : List TypeDef) (rn : List (String × String) × Nat),
      processDefs find p re alldefs l = Except.ok rn →
      rn.2 = (matchedDefs re l).length := by
  intro l
  induction l with
  | nil =>
    intro rn h
    have : rn = ([], 0) := by
      have h' : Except.ok ([], 0) = (Except.ok rn : Except LocErr _) := h ▸ rfl
      injection h' with h''
      exact h''.symm
    rw [this, matchedDefs]
    rfl
  | cons d rest ih =>
    intro rn h
    simp only [processDefs] at h
    by_cases hm : ifcMatched re d
    · rw [if_pos hm] at h
      cases hifc : d.ifc with
      | none =>
        exact absurd hifc (by
          obtain ⟨i, hi⟩ := ifcMatched_isSome re d hm
          rw [hi]
          exact fun hc => Option.noConfusion hc)
      | some i =>
        simp only [hifc] at h
        cases hemb : embedRegs find p alldefs i with
        | error err => rw [hemb] at h; exact Except.noConfusion h
        | ok er =>
          rw [hemb] at h
          cases hrest : processDefs find p re alldefs rest with
          | error err => rw [hrest] at h; exact Except.noConfusion h
          | ok rn' =>
            rw [hrest] at h
            injection h with h'
            rw [← h']
            have := ih rn' hrest
            simp only [matchedDefs, List.filter_cons, hm, if_true]
            simp only [matchedDefs] at this
            simp [this]
    · rw [if_neg hm] at h
      have := ih rn h
      simp only [matchedDefs, List.filter_cons] at this ⊢
      simp only [Bool.not_eq_true] at hm
      simp [hm, this]

theorem processForeign_err
    (find : String → RePat → Except LocErr (List (String × String))) (p : String) :
    ∀ (el : List EmbRef) (err : LocErr), processForeign find p el = Except.error err →
      ∃ e ∈ el, e.isNamed = true ∧ e.pkgPath ≠ p ∧
        find e.pkgPath (anchorPattern e.name) = Except.error err := by
  intro el
  induction el with
  | nil => intro err h; exact Except.noConfusion h
  | cons e₀ rest ih =>
    intro err h
    simp only [processForeign] at h
    by_cases hcond : (e₀.isNamed && e₀.pkgPath != p) = true
    · rw [if_pos hcond] at h
      have hnamed : e₀.isNamed = true := (Bool.and_eq_true _ _ ▸ hcond).1
      have hne : e₀.pkgPath ≠ p := by
        have := (Bool.and_eq_true _ _ ▸ hcond).2
        exact bne_iff_ne.mp this
      cases hfind : find e₀.pkgPath (anchorPattern e₀.name) with
      | error err' =>
        rw [hfind] at h
        injection h with h'
        exact ⟨e₀, List.mem_cons_self _ _, hnamed, hne, h' ▸ hfind⟩
      | ok regs =>
        rw [hfind] at h
        cases hrest : processForeign find p rest with
        | error err' =>
          rw [hrest] at h
          injection h with h'
          obtain ⟨e, he, h1, h2, h3⟩ := ih err' hrest
          exact ⟨e, List.mem_cons_of_mem _ he, h1, h2, h' ▸ h3⟩
        | ok rs => rw [hrest] at h; exact Except.noConfusion h
    · rw [if_neg hcond] at h
      obtain ⟨e, he, h1, h2, h3⟩ := ih err h
      exact ⟨e, List.mem_cons_of_mem _ he, h1, h2, h3⟩

theorem embedRegs_err
    (find : String → RePat → Except LocErr (List (String × String)))
    (p : String) (alldefs : List TypeDef) (i : GoIfc) (err : LocErr)
    (h : embedRegs find p alldefs i = Except.error err) :
    processForeign find p i.embeddeds = Except.error err := by
  unfold embedRegs at h
  by_cases hemp : i.embeddeds.isEmpty
  · rw [if_pos hemp] at h; exact Except.noConfusion h
  · rw [if_neg hemp] at h
    cases hfor : processForeign find p i.embeddeds with
    | error err' =>
      rw [hfor] at h
      injection h with h'
      rw [h']
    | ok fr => rw [hfor] at h; exact Except.noConfusion h

theorem processDefs_err
    (find : String → RePat → Except LocErr (List (String × String)))
    (p : String) (re : RePat) (alldefs : List TypeDef) :
    ∀ (l : List TypeDef) (err : LocErr),
      processDefs find p re alldefs l = Except.error err →
      ∃ d ∈ l, ifcMatched re d = true ∧ ∃ i, d.ifc = some i ∧
        ∃ e ∈ i.embeddeds, e.isNamed = true ∧ e.pkgPath ≠ p ∧
          find e.pkgPath (anchorPattern e.name) = Except.error err := by
  intro l
  induction l with
  | nil => intro err h; exact Except.noConfusion h
  | cons d₀ rest ih =>
    intro err h
    simp only [processDefs] at h
    by_cases hm : ifcMatched re d₀
    · rw [if_pos hm] at h
      cases hifc : d₀.ifc with
      | none =>
        simp only [hifc] at h
        obtain ⟨d, hd, rest'⟩ := ih err h
        exact ⟨d, List.mem_cons_of_mem _ hd, rest'⟩
      | some i =>
        simp only [hifc] at h
        cases hemb : embedRegs find p alldefs i with
        | error err' =>
          rw [hemb] at h
          injection h with h'
          have hfor := embedRegs_err find p alldefs i err' hemb
          obtain ⟨e, he, h1, h2, h3⟩ := processForeign_err find p i.embeddeds err' hfor
          exact ⟨d₀, List.mem_cons_self _ _, hm, i, hifc, e, he, h1, h2, h' ▸ h3⟩
        | ok er =>
          rw [hemb] at h
          cases hrest : processDefs find p re alldefs rest with
          | error err' =>
            rw [hrest] at h
            injection h with h'
            obtain ⟨d, hd, rest'⟩ := ih err' hrest
            exact h' ▸ ⟨d, List.mem_cons_of_mem _ hd, rest'⟩
          | ok rn => rw [hrest] at h; exact Except.noConfusion h
    · rw [if_neg hm] at h
      obtain ⟨d, hd, rest'⟩ := ih err h
      exact ⟨d, List.mem_cons_of_mem _ hd, rest'⟩

/-- Whether a foreign embedded reference resolves: its package is loaded
and contains at least one definition matching the `name$` pattern.  In a
well-typed Go program this always holds (the embedded named interface is
declared, exported, in that package). -/
def embOK (w : WorldM) (p : String) (e : EmbRef) : Bool :=
  if e.isNamed && e.pkgPath != p then
    match lookupPkg w e.pkgPath with
    | none => false
    | some pk' => pk'.defs.any (fun ed => ifcMatched (anchorPattern e.name) ed)
  else true

/-- Well-formedness of a world, mirroring Go's guarantee that every
embedded named foreign interface is declared in its package. -/
def embedsResolve (w : WorldM) : Bool :=
  w.pkgs.all (fun pk => pk.defs.all (fun d =>
    match d.ifc with
    | none => true
    | some i => i.embeddeds.all (fun e => embOK w pk.path e)))

theorem embedsResolve_spec (w : WorldM) (h : embedsResolve w = true) :
    ∀ pk ∈ w.pkgs, ∀ d ∈ pk.defs, ∀ i, d.ifc = some i →
      ∀ e ∈ i.embeddeds, e.isNamed = true → e.pkgPath ≠ pk.path →
        ∃ pk', lookupPkg w e.pkgPath = some pk' ∧
          ∃ ed ∈ pk'.defs, ifcMatched (anchorPattern e.name) ed = true := by
  intro pk hpk d hd i hi e he hn hne
  unfold embedsResolve at h
  have h1 := (List.all_eq_true.mp h) pk hpk
  have h2 := (List.all_eq_true.mp h1) d hd
  rw [hi] at h2
  have h3 := (List.all_eq_true.mp h2) e he
  unfold embOK at h3
  have hcond : (e.isNamed && e.pkgPath != pk.path) = true := by
    simp [hn, bne_iff_ne, hne]
  rw [if_pos hcond] at h3
  cases hlk : lookupPkg w e.pkgPath with
  | none => rw [hlk] at h3; exact Bool.noConfusion h3
  | some pk' =>
    rw [hlk] at h3
    obtain ⟨ed, hed, hm⟩ := List.any_eq_true.mp h3
    exact ⟨pk', rfl, ed, hed, hm⟩

/-- Under a well-formed world, a no-match error can only arise at the
directly targeted package, exactly when nothing matched there and the
ignore option is off. -/
theorem findIfcsGo_noMatch_inv (w : WorldM) (hw : embedsResolve w = true) :
    ∀ (fuel : Nat) (ig : Bool) (p : String) (re : RePat) (q : String),
      findIfcsGo fuel w ig p re = Except.error (LocErr.noMatch q) →
      q = p ∧ ig = false ∧
        ∃ pkg, lookupPkg w p = some pkg ∧ matchedDefs re pkg.defs = [] := by
  intro fuel
  induction fuel with
  | zero =>
    intro ig p re q h
    simp [findIfcsGo] at h
  | succ k ih =>
    intro ig p re q h
    unfold findIfcsGo at h
    cases hlk : lookupPkg w p with
    | none =>
      simp only [hlk] at h
      injection h with h'
      exact LocErr.noConfusion h'
    | some pkg =>
      simp only [hlk] at h
      cases hpd : processDefs (findIfcsGo k w ig) p re pkg.defs pkg.defs with
      | ok rn =>
        simp only [hpd] at h
        by_cases hcond : (!ig && rn.2 == 0) = true
        · rw [if_pos hcond] at h
          injection h with h'
          have hq : q = p := (LocErr.noMatch.inj h').symm
          have hig : ig = false := by
            have := (Bool.and_eq_true _ _ ▸ hcond).1
            simpa using this
          have hn0 : rn.2 = 0 := by
            have := (Bool.and_eq_true _ _ ▸ hcond).2
            simpa using this
          have hcount := processDefs_count (findIfcsGo k w ig) p re pkg.defs pkg.defs rn hpd
          have hlen : (matchedDefs re pkg.defs).length = 0 := by omega
          exact ⟨hq, hig, pkg, rfl, List.length_eq_zero.mp hlen⟩
        · rw [if_neg hcond] at h
          exact Except.noConfusion h
      | error err =>
        simp only [hpd] at h
        injection h with h'
        obtain ⟨d, hd, hm, i, hi, e, he, hn, hne, hfind⟩ :=
          processDefs_err (findIfcsGo k w ig) p re pkg.defs pkg.defs err hpd
        rw [h'] at hfind
        obtain ⟨hq, hig, pkg', hlk', hempty⟩ := ih ig e.pkgPath (anchorPattern e.name) q hfind
        obtain ⟨hpkmem, hpkpath⟩ := lookupPkg_props w p pkg hlk
        obtain ⟨pk'', hlk'', ed, hed, hm'⟩ :=
          embedsResolve_spec w hw pkg hpkmem d hd i hi e he hn (hpkpath ▸ hne)
        have hpkeq : pkg' = pk'' := by
          rw [hlk''] at hlk'
          exact (Option.some.inj hlk').symm
        exfalso
        have hmem : ed ∈ matchedDefs (anchorPattern e.name) pkg'.defs := by
          rw [hpkeq]
          exact List.mem_filter.mpr ⟨hed, hm'⟩
        rw [hempty] at hmem
        exact List.not_mem_nil ed hmem

/-- C5: resolving contracts for a module path and pattern fails with the
no-match error exactly when zero exported interface declarations of the
directly targeted module match the pattern AND the engine is not
configured to tolerate empty matches (`IgnoreMissingFuctionsEtc`); with
the option set, a spec matching zero contracts is not an error and
contributes zero contracts to the result set. -/
theorem C5_no_match_error_iff
    (fuel : Nat) (w : WorldM) (ig : Bool) (p : String) (re : RePat) (pkg : PkgM)
    (hlk : lookupPkg w p = some pkg) (hw : embedsResolve w = true) :
    ((∃ q, findIfcsGo (fuel + 1) w ig p re = Except.error (LocErr.noMatch q)) ↔
      (matchedDefs re pkg.defs = [] ∧ ig = false))
    ∧ (matchedDefs re pkg.defs = [] ∧ ig = true →
        findIfcsGo (fuel + 1) w ig p re = Except.ok []) := by
  have hempty_run : matchedDefs re pkg.defs = [] →
      findIfcsGo (fuel + 1) w ig p re =
        (if ig then Except.ok [] else Except.error (LocErr.noMatch p)) := by
    intro hempty
    have hnone : ∀ d ∈ pkg.defs, ifcMatched re d = false := by
      intro d hd
      by_cases hm : ifcMatched re d
      · exfalso
        have : d ∈ matchedDefs re pkg.defs := List.mem_filter.mpr ⟨hd, hm⟩
        rw [hempty] at this
        exact List.not_mem_nil d this
      · exact Bool.not_eq_true _ ▸ hm
    have hpd := processDefs_nomatch (findIfcsGo fuel w ig) p re pkg.defs pkg.defs hnone
    unfold findIfcsGo
    simp only [hlk, hpd]
    cases ig <;> simp
  constructor
  · constructor
    · rintro ⟨q, hq⟩
      obtain ⟨_, hig, pkg', hlk', hempty⟩ :=
        findIfcsGo_noMatch_inv w hw (fuel + 1) ig p re q hq
      have : pkg' = pkg := by
        rw [hlk] at hlk'
        exact (Option.some.inj hlk').symm
      exact ⟨this ▸ hempty, hig⟩
    · rintro ⟨hempty, hig⟩
      subst hig
      refine ⟨p, ?_⟩
      simpa using hempty_run hempty
  · rintro ⟨hempty, hig⟩
    subst hig
    simpa using hempty_run hempty

/-- Witness for C5: the pattern `Nope$` matches no exported interface of
the `embedded` test package; without the ignore option the resolution
fails with the no-match error, with it the spec contributes zero
contracts. -/
theorem C5_no_match_error_iff_witness :
    (((∃ q, findIfcsGo 2 embWorld false "embedded" (RePat.litSuffix "Nope") =
        Except.error (LocErr.noMatch q)) ↔
      (matchedDefs (RePat.litSuffix "Nope") embeddedPkg.defs = [] ∧ false = false))
     ∧ (matchedDefs (RePat.litSuffix "Nope") embeddedPkg.defs = [] ∧ false = true →
        findIfcsGo 2 embWorld false "embedded" (RePat.litSuffix "Nope") = Except.ok []))
    ∧ (((∃ q, findIfcsGo 2 embWorld true "embedded" (RePat.litSuffix "Nope") =
        Except.error (LocErr.noMatch q)) ↔
      (matchedDefs (RePat.litSuffix "Nope") embeddedPkg.defs = [] ∧ true = false))
     ∧ (matchedDefs (RePat.litSuffix "Nope") embeddedPkg.defs = [] ∧ true = true →
        findIfcsGo 2 embWorld true "embedded" (RePat.litSuffix "Nope") = Except.ok [])) :=
  ⟨C5_no_match_error_iff 1 embWorld false "embedded" (RePat.litSuffix "Nope") embeddedPkg
      (by decide) (by decide),
   C5_no_match_error_iff 1 embWorld true "embedded" (RePat.litSuffix "Nope") embeddedPkg
      (by decide) (by decide)⟩

/-! ## C6: spec compilation errors and `Do`'s sequencing

`(*T).Do` of the current iteration dedups the registered specs, computes
the union of their package paths (pure string splitting — no pattern
compilation), loads *all* of them via `loader.loadPaths`, and only then
resolves interfaces, which is when `getPathAndRegexp` compiles each
spec's pattern and surfaces `failed to compile regexp` errors.  The model
returns the list of paths handed to the loader alongside the result. -/

def dedupAux (seen : List String) : List String → List String
  | [] => []
  | p :: rest =>
    if seen.contains p || p.length == 0 then dedupAux seen rest
    else p :: dedupAux (p :: seen) rest

/-- Model of `dedup` of `locate/specs.go`: drop duplicates and empty strings,
keeping first occurrences. -/
def dedupGo (inputs : List String) : List String := dedupAux [] inputs

def packagesFromSpecs (specs : List String) : List String :=
  specs.map (fun s => (parseSpecAndRegexp s).1)

/-- Model of `packagesToLoad`: the deduplicated union of the package paths of all
interface specs, function specs and implementation packages. -/
def packagesToLoad (ifcs fns impls : List String) : List String :=
  dedupGo (packagesFromSpecs ifcs ++ packagesFromSpecs fns ++ impls)

/-- Model of `getPathAndRegexp`: parse the spec and compile its pattern, failing
with the offending pattern text when it does not compile. -/
def getPathAndRegexp (typ : String) : Except LocErr (String × RePat) :=
  let pr := parseSpecAndRegexp typ
  if pr.1.length == 0 then Except.error (LocErr.noPackageName typ)
  else
    match compileRe pr.2 with
    | none => Except.error (LocErr.invalidSpec pr.2)
    | some re => Except.ok (pr.1, re)

/-- Model of `loader.loadPaths`: every requested path must resolve to a named,
well-typed package; otherwise the load fails (and nothing is cached). -/
def loadPathsM (w : WorldM) (paths : List String) : Except LocErr Unit :=
  match paths.filter (fun p => (lookupPkg w p).isNone) with
  | [] => Except.ok ()
  | missing => Except.error (LocErr.loadFailed missing)

/-- The sequential compile loop of `findInterfaces`: the first spec whose
pattern fails to compile aborts with that error. -/
def compileSpecs : List String → Except LocErr (List (String × RePat))
  | [] => Except.ok []
  | s :: rest =>
    match getPathAndRegexp s with
    | Except.error e => Except.error e
    | Except.ok pr =>
      match compileSpecs rest with
      | Except.error e => Except.error e
      | Except.ok prs => Except.ok (pr :: prs)

def runResolutions (fuel : Nat) (w : WorldM) (ig : Bool) :
    List (String × RePat) → Except LocErr Unit
  | [] => Except.ok ()
  | pr :: rest =>
    match findIfcsGo fuel w ig pr.1 pr.2 with
    | Except.error e => Except.error e
    | Except.ok _ => runResolutions fuel w ig rest

/-- Model of `findInterfaces`: compile every interface spec (compile errors are
returned without waiting for resolution), then resolve each. -/
def findInterfacesM (fuel : Nat) (w : WorldM) (ig : Bool) (specs : List String) :
    Except LocErr Unit :=
  match compileSpecs specs with
  | Except.error e => Except.error e
  | Except.ok prs => runResolutions fuel w ig prs

/-- Model of `Do`, through its loading and interface-resolution phases (the
subsequent function/implementation/comment phases are independent of the
properties at issue): returns the package paths handed to the loader and
the phase result. -/
def doLoadAndResolveIfcs (fuel : Nat) (w : WorldM) (ig : Bool)
    (ifcSpecs fnSpecs implPkgs : List String) :
    List String × Except LocErr Unit :=
  let interfaces := dedupGo ifcSpecs
  let functions := dedupGo fnSpecs
  let pkgsDedup := dedupGo implPkgs
  let allPackages := packagesToLoad interfaces functions pkgsDedup
  match loadPathsM w allPackages with
  | Except.error e => (allPackages, Except.error e)
  | Except.ok _ => (allPackages, findInterfacesM fuel w ig interfaces)

/-- The first spec-compilation error of a spec list, if any. -/
def firstSpecError : List String → Option LocErr
  | [] => none
  | s :: rest =>
    match getPathAndRegexp s with
    | Except.error e => some e
    | Except.ok _ => firstSpecError rest

theorem compileSpecs_first_error (specs : List String) (e : LocErr)
    (h : firstSpecError specs = some e) : compileSpecs specs = Except.error e := by
  induction specs with
  | nil => exact Option.noConfusion h
  | cons s rest ih =>
    simp only [firstSpecError] at h
    cases hg : getPathAndRegexp s with
    | error e' =>
      rw [hg] at h
      simp only [compileSpecs, hg]
      exact congrArg Except.error (Option.some.inj h).symm ▸ rfl
    | ok pr =>
      rw [hg] at h
      simp only [compileSpecs, hg]
      rw [ih h]

/-- A world with one well-typed package `a/b` containing one exported
interface. -/
def abWorld : WorldM :=
  { pkgs := [{ path := "a/b",
               defs := [{ name := "Ifc", pos := 1, isTypeName := true,
                          ifc := some { methods := [sigPk], embeddeds := [] } }] }] }

/-- Counterexample to C6 as stated: the malformed spec `"a/b.("` makes
`Do` fail with the invalid-spec error carrying the offending pattern
`"("` — but only *after* the loader has been handed (and has loaded) the
spec's module path `a/b`; the failure does not occur before any module
is loaded. -/
theorem C6_invalid_spec_after_load_counterexample :
    doLoadAndResolveIfcs 2 abWorld false ["a/b.("] [] [] =
      (["a/b"], Except.error (LocErr.invalidSpec "("))
    ∧ (["a/b"] : List String) ≠ [] := by
  refine ⟨by decide, by decide⟩

/-- C6 amended: for every spec whose name-pattern component does not
compile, the `Do` operation fails with the invalid-spec error carrying
the offending pattern text — but the failure occurs *after* module
loading: the loader is first invoked on the package paths of all
registered specs (including the malformed one, whose path component
parses fine), and only then are the patterns compiled. -/
theorem C6_invalid_spec_fails_after_loading
    (fuel : Nat) (w : WorldM) (ig : Bool) (ifcSpecs fnSpecs implPkgs : List String)
    (expr : String)
    (hload : loadPathsM w (packagesToLoad (dedupGo ifcSpecs) (dedupGo fnSpecs)
        (dedupGo implPkgs)) = Except.ok ())
    (herr : firstSpecError (dedupGo ifcSpecs) = some (LocErr.invalidSpec expr)) :
    doLoadAndResolveIfcs fuel w ig ifcSpecs fnSpecs implPkgs =
      (packagesToLoad (dedupGo ifcSpecs) (dedupGo fnSpecs) (dedupGo implPkgs),
       Except.error (LocErr.invalidSpec expr)) := by
  unfold doLoadAndResolveIfcs
  simp only [hload]
  unfold findInterfacesM
  simp only [compileSpecs_first_error (dedupGo ifcSpecs) (LocErr.invalidSpec expr) herr]

/-- Witness for C6 amended at the malformed spec `"a/b.("`. -/
theorem C6_invalid_spec_fails_after_loading_witness :
    doLoadAndResolveIfcs 2 abWorld false ["a/b.("] [] [] =
      (packagesToLoad (dedupGo ["a/b.("]) (dedupGo []) (dedupGo []),
       Except.error (LocErr.invalidSpec "(")) :=
  C6_invalid_spec_fails_after_loading 2 abWorld false ["a/b.("] [] [] "("
    (by decide) (by decide)

/-! ## The caching loader of the earlier iteration
(`build` / `buildAndParse` / `buildParseAndCheck` in `locate.go`)

The file-system and toolchain behaviour is an explicit world:
`build.Context.Import` resolves a package path to a directory,
`parser.ParseDir` yields the packages (by name) found in a directory
(`none` = parse error), and `types.Config.Check` type-checks the single
parsed package (`none` = type error or incomplete package).  Expensive
work is made observable as an event trace. -/

structure ParsedPkg where
  files : List String
deriving DecidableEq

structure TypeInfo where
  symbols : List (String × String)
deriving DecidableEq

inductive OldErr where
  | importFailed (path : String)
  | parseFailed (dir : String)
  | ambiguous (dir : String) (names : List String)
  | typeFailed (path : String)
deriving DecidableEq

inductive LoadEvent where
  | importEv (path : String)
  | parseEv (dir : String)
  | checkEv (path : String)
deriving DecidableEq

structure GoBuildWorld where
  importDir : String → Option String
  parseDir : String → Option (List (String × ParsedPkg))
  typeCheck : String → ParsedPkg → Option TypeInfo

/-- The `built` / `parsed` / `checked` caches of the earlier `locate.T`. -/
structure LoadState where
  built : List (String × String)
  parsed : List (String × ParsedPkg)
  checked : List (String × TypeInfo)
deriving DecidableEq

def emptyLoadState : LoadState := { built := [], parsed := [], checked := [] }

/-- Model of `(*T).build`: serve the cached directory, otherwise import and cache. -/
def buildM (w : GoBuildWorld) (st : LoadState) (p : String) :
    LoadState × List LoadEvent × Except OldErr String :=
  match assocFind st.built p with
  | some dir => (st, [], Except.ok dir)
  | none =>
    match w.importDir p with
    | none => (st, [LoadEvent.importEv p], Except.error (OldErr.importFailed p))
    | some dir =>
      ({ st with built := assocInsert st.built p dir },
       [LoadEvent.importEv p], Except.ok dir)

/-- Model of `(*T).buildAndParse`: build, then serve the cached parse; otherwise
parse the directory, failing when it does not contain exactly one
package — the error text lists every package name found. -/
def buildAndParseM (w : GoBuildWorld) (st : LoadState) (p : String) :
    LoadState × List LoadEvent × Except OldErr (String × ParsedPkg) :=
  let r := buildM w st p
  match r.2.2 with
  | Except.error e => (r.1, r.2.1, Except.error e)
  | Except.ok dir =>
    match assocFind r.1.parsed p with
    | some pp => (r.1, r.2.1, Except.ok (dir, pp))
    | none =>
      match w.parseDir dir with
      | none => (r.1, r.2.1 ++ [LoadEvent.parseEv dir], Except.error (OldErr.parseFailed dir))
      | some multi =>
        match multi with
        | [single] =>
          ({ r.1 with parsed := assocInsert r.1.parsed p single.2 },
           r.2.1 ++ [LoadEvent.parseEv dir], Except.ok (dir, single.2))
        | other =>
          (r.1, r.2.1 ++ [LoadEvent.parseEv dir],
           Except.error (OldErr.ambiguous dir (other.map Prod.fst)))

/-- Model of `(*T).buildParseAndCheck`: build and parse, then serve the cached
type-check; otherwise check and cache. -/
def buildParseAndCheckM (w : GoBuildWorld) (st : LoadState) (p : String) :
    LoadState × List LoadEvent × Except OldErr TypeInfo :=
  let r := buildAndParseM w st p
  match r.2.2 with
  | Except.error e => (r.1, r.2.1, Except.error e)
  | Except.ok dp =>
    match assocFind r.1.checked p with
    | some info => (r.1, r.2.1, Except.ok info)
    | none =>
      match w.typeCheck p dp.2 with
      | none => (r.1, r.2.1 ++ [LoadEvent.checkEv p], Except.error (OldErr.typeFailed p))
      | some info =>
        ({ r.1 with checked := assocInsert r.1.checked p info },
         r.2.1 ++ [LoadEvent.checkEv p], Except.ok info)

theorem buildM_cached (w : GoBuildWorld) (st : LoadState) (p dir : String)
    (h : assocFind st.built p = some dir) :
    buildM w st p = (st, [], Except.ok dir) := by
  unfold buildM
  simp [h]

theorem buildM_ok_state (w : GoBuildWorld) (st : LoadState) (p dir : String)
    (hok : (buildM w st p).2.2 = Except.ok dir) :
    assocFind (buildM w st p).1.built p = some dir
    ∧ (buildM w st p).1.parsed = st.parsed
    ∧ (buildM w st p).1.checked = st.checked := by
  unfold buildM at hok ⊢
  cases hb : assocFind st.built p with
  | some d =>
    simp only [hb] at hok ⊢
    have : d = dir := by injection hok
    exact ⟨this ▸ rfl, trivial, trivial⟩
  | none =>
    simp only [hb] at hok ⊢
    cases hi : w.importDir p with
    | none =>
      rw [hi] at hok
      exact Except.noConfusion hok
    | some d =>
      rw [hi] at hok
      simp only [hi]
      have : d = dir := by injection hok
      subst this
      exact ⟨assocFind_insert_self _ _ _, trivial, trivial⟩

theorem buildAndParseM_cached (w : GoBuildWorld) (st : LoadState) (p dir : String)
    (pp : ParsedPkg) (hb : assocFind st.built p = some dir)
    (hp : assocFind st.parsed p = some pp) :
    buildAndParseM w st p = (st, [], Except.ok (dir, pp)) := by
  unfold buildAndParseM
  rw [buildM_cached w st p dir hb]
  simp [hp]

theorem buildAndParseM_ok_state (w : GoBuildWorld) (st : LoadState) (p : String)
    (dp : String × ParsedPkg)
    (hok : (buildAndParseM w st p).2.2 = Except.ok dp) :
    assocFind (buildAndParseM w st p).1.built p = some dp.1
    ∧ assocFind (buildAndParseM w st p).1.parsed p = some dp.2
    ∧ (buildAndParseM w st p).1.checked = st.checked := by
  unfold buildAndParseM at hok ⊢
  cases hb : (buildM w st p).2.2 with
  | error e =>
    simp only [hb] at hok
    exact Except.noConfusion hok
  | ok dir =>
    obtain ⟨hbuilt, hparsed, hchecked⟩ := buildM_ok_state w st p dir hb
    simp only [hb] at hok ⊢
    cases hp : assocFind (buildM w st p).1.parsed p with
    | some pp =>
      simp only [hp] at hok ⊢
      have : (dir, pp) = dp := by injection hok
      subst this
      exact ⟨hbuilt, rfl, hchecked⟩
    | none =>
      simp only [hp] at hok ⊢
      cases hd : w.parseDir dir with
      | none =>
        rw [hd] at hok
        exact Except.noConfusion hok
      | some multi =>
        rw [hd] at hok
        simp only [hd]
        cases multi with
        | nil => exact Except.noConfusion hok
        | cons a tail =>
          cases tail with
          | nil =>
            simp only at hok ⊢
            have : (dir, a.2) = dp := by injection hok
            subst this
            refine ⟨hbuilt, ?_, hchecked⟩
            exact assocFind_insert_self _ _ _
          | cons b rest => exact Except.noConfusion hok

theorem buildParseAndCheckM_cached (w : GoBuildWorld) (st : LoadState)
    (p dir : String) (pp : ParsedPkg) (info : TypeInfo)
    (hb : assocFind st.built p = some dir)
    (hp : assocFind st.parsed p = some pp)
    (hc : assocFind st.checked p = some info) :
    buildParseAndCheckM w st p = (st, [], Except.ok info) := by
  unfold buildParseAndCheckM
  rw [buildAndParseM_cached w st p dir pp hb hp]
  simp [hc]

theorem buildParseAndCheckM_ok_state (w : GoBuildWorld) (st : LoadState) (p : String)
    (info : TypeInfo)
    (hok : (buildParseAndCheckM w st p).2.2 = Except.ok info) :
    ∃ dir pp, assocFind (buildParseAndCheckM w st p).1.built p = some dir
      ∧ assocFind (buildParseAndCheckM w st p).1.parsed p = some pp
      ∧ assocFind (buildParseAndCheckM w st p).1.checked p = some info := by
  unfold buildParseAndCheckM at hok ⊢
  cases hbp : (buildAndParseM w st p).2.2 with
  | error e =>
    simp only [hbp] at hok
    exact Except.noConfusion hok
  | ok dp =>
    obtain ⟨hbuilt, hparsed, _⟩ := buildAndParseM_ok_state w st p dp hbp
    simp only [hbp] at hok ⊢
    cases hc : assocFind (buildAndParseM w st p).1.checked p with
    | some info' =>
      simp only [hc] at hok ⊢
      have : info' = info := by injection hok
      subst this
      exact ⟨dp.1, dp.2, hbuilt, hparsed, rfl⟩
    | none =>
      simp only [hc] at hok ⊢
      cases ht : w.typeCheck p dp.2 with
      | none =>
        rw [ht] at hok
        exact Except.noConfusion hok
      | some info' =>
        rw [ht] at hok
        simp only [ht]
        have : info' = info := by injection hok
        subst this
        exact ⟨dp.1, dp.2, hbuilt, hparsed, assocFind_insert_self _ _ _⟩

/-- C8: loading is idempotent.  After a successful
`buildParseAndCheck` for a package path, requesting the same path again
returns the cached build, parse and type-check results with *no* work
events (no re-import, no re-parse, no re-type-check), an unchanged
state, and the observably identical symbol-table contents. -/
theorem C8_load_idempotent (w : GoBuildWorld) (st : LoadState) (p : String)
    (info : TypeInfo)
    (hok : (buildParseAndCheckM w st p).2.2 = Except.ok info) :
    buildParseAndCheckM w (buildParseAndCheckM w st p).1 p =
      ((buildParseAndCheckM w st p).1, [], Except.ok info) := by
  obtain ⟨dir, pp, hb, hp, hc⟩ := buildParseAndCheckM_ok_state w st p info hok
  exact buildParseAndCheckM_cached w _ p dir pp info hb hp hc

/-- Witness for C8: a one-package world loaded from the empty state. -/
def w8 : GoBuildWorld :=
  { importDir := fun p => if p = "pkg/a" then some "/src/a" else none,
    parseDir := fun d => if d = "/src/a" then
        some [("a", { files := ["a.go"] })] else none,
    typeCheck := fun p _ => if p = "pkg/a" then
        some { symbols := [("Ifc", "interface")] } else none }

theorem C8_load_idempotent_witness :
    buildParseAndCheckM w8 (buildParseAndCheckM w8 emptyLoadState "pkg/a").1 "pkg/a" =
      ((buildParseAndCheckM w8 emptyLoadState "pkg/a").1, [],
       Except.ok { symbols := [("Ifc", "interface")] }) :=
  C8_load_idempotent w8 emptyLoadState "pkg/a" { symbols := [("Ifc", "interface")] }
    (by decide)

/-- C9: a module whose source directory parses to more than one distinct
top-level package fails with the ambiguous-module error whose message
lists all of the conflicting package names; every load attempt for that
path (and hence every spec targeting it, all of which go through
`buildParseAndCheck`) fails identically. -/
theorem C9_ambiguous_module_lists_all_names (w : GoBuildWorld) (st : LoadState)
    (p dir : String) (a b : String × ParsedPkg) (rest : List (String × ParsedPkg))
    (himp : w.importDir p = some dir)
    (hbuilt : assocFind st.built p = none ∨ assocFind st.built p = some dir)
    (hparsedMiss : assocFind st.parsed p = none)
    (hdir : w.parseDir dir = some (a :: b :: rest))
    (hnames : ((a :: b :: rest).map Prod.fst).Nodup) :
    (buildAndParseM w st p).2.2 =
      Except.error (OldErr.ambiguous dir ((a :: b :: rest).map Prod.fst))
    ∧ (buildParseAndCheckM w st p).2.2 =
      Except.error (OldErr.ambiguous dir ((a :: b :: rest).map Prod.fst)) := by
  have hbap : (buildAndParseM w st p).2.2 =
      Except.error (OldErr.ambiguous dir ((a :: b :: rest).map Prod.fst)) := by
    unfold buildAndParseM
    rcases hbuilt with hb | hb
    · have hbm : buildM w st p =
          ({ st with built := assocInsert st.built p dir },
           [LoadEvent.importEv p], Except.ok dir) := by
        unfold buildM
        simp [hb, himp]
      rw [hbm]
      simp [hparsedMiss, hdir]
    · rw [buildM_cached w st p dir hb]
      simp [hparsedMiss, hdir]
  refine ⟨hbap, ?_⟩
  unfold buildParseAndCheckM
  simp only [hbap]

/-- Witness for C9: a directory containing the two packages `foo` and
`bar`; both names appear in the error. -/
def w9 : GoBuildWorld :=
  { importDir := fun p => if p = "pkg/multi" then some "/src/multi" else none,
    parseDir := fun d => if d = "/src/multi" then
        some [("foo", { files := ["foo.go"] }), ("bar", { files := ["bar.go"] })]
      else none,
    typeCheck := fun _ _ => none }

theorem C9_ambiguous_module_lists_all_names_witness :
    (buildAndParseM w9 emptyLoadState "pkg/multi").2.2 =
      Except.error (OldErr.ambiguous "/src/multi" ["foo", "bar"])
    ∧ (buildParseAndCheckM w9 emptyLoadState "pkg/multi").2.2 =
      Except.error (OldErr.ambiguous "/src/multi" ["foo", "bar"]) :=
  C9_ambiguous_module_lists_all_names w9 emptyLoadState "pkg/multi" "/src/multi"
    ("foo", { files := ["foo.go"] }) ("bar", { files := ["bar.go"] }) []
    (by decide) (Or.inl (by decide)) (by decide) (by decide) (by decide)
